import Mathlib

/-!
Verification of the FRI polynomial-commitment library against its
natural-language specification.  The Rust sources are shallowly embedded:
coefficient vectors become `List F` over an abstract prime field `F`,
`usize` becomes `ℕ`, fallible or panicking code returns `Option`, and the
BLAKE3 digest is modelled as a free hash algebra (the spec treats the hash
as an opaque collision-resistant function).
-/

set_option linter.unusedSectionVars false

namespace Plonky2

/-- `FRI_BLOWUP_FACTOR`.  Modelled from the spec: the `constants` module is
declared in `lib.rs` but its file is not part of the sources; §6 of the spec
fixes `FRI_BLOWUP_FACTOR = 8`. -/
def FRI_BLOWUP_FACTOR : ℕ := 8

/-- `FRI_BLOWUP_LOG`.  Modelled from the spec: the `constants` module is
declared in `lib.rs` but its file is not part of the sources; §6 of the spec
fixes `FRI_BLOWUP_LOG = 3`. -/
def FRI_BLOWUP_LOG : ℕ := 3

/-- Fuel-driven halving count, structural so that it evaluates by `decide`. -/
def log2fuel : ℕ → ℕ → ℕ
  | 0, _ => 0
  | f + 1, n => if n ≤ 1 then 0 else log2fuel f (n / 2) + 1

/-- Floor base-2 logarithm (`⌊log₂ n⌋` for `n ≥ 1`, `0` at `0`).  The source
computes it with `while y != 1 { y >>= 1; x += 1 }`, which agrees for `y ≥ 1`
and never terminates for `y = 0`; divergence at `0` is modelled separately
where it is reachable. -/
def floorLog2 (n : ℕ) : ℕ := log2fuel n n

/-- Rust `usize::next_power_of_two`: the least power of two that is `≥ n`
(and `1` for `n = 0`). -/
def nextPow2 (n : ℕ) : ℕ := if n ≤ 1 then 1 else 2 ^ (floorLog2 (n - 1) + 1)

/-- Rust `usize::is_power_of_two`. -/
def isPow2 (n : ℕ) : Bool := n == 2 ^ floorLog2 n

/-- Concrete fields used for witnesses and counterexamples.  `ZMod 5` is a
stand-in prime field; `ZMod 17` and `ZMod 97` have 2-adicity 4 and 5, mirroring
the Goldilocks structure `p - 1 = 2^S * odd` at a size where everything can be
evaluated. -/
instance fact_prime_5 : Fact (Nat.Prime 5) := ⟨by norm_num⟩

instance fact_prime_17 : Fact (Nat.Prime 17) := ⟨by norm_num⟩

instance fact_prime_97 : Fact (Nat.Prime 97) := ⟨by norm_num⟩

variable {F : Type} [Field F] [DecidableEq F]

/-- Coefficient of a coefficient vector at index `i` (zero beyond the end). -/
def coeffAt (l : List F) (i : ℕ) : F := l.getD i 0

/-- The while-loops of `long_division` and `pop_zeros` that pop trailing zero
coefficients (`while !v.is_empty() && v.last().unwrap().is_zero() { v.pop() }`,
src/polynomial/arithmetic.rs lines 106-108 and 128-130, src/polynomial/mod.rs
lines 29-36), written as structural recursion from the front. -/
def stripTrailZeros : List F → List F
  | [] => []
  | a :: t =>
    let s := stripTrailZeros t
    if s.isEmpty then (if a = 0 then [] else [a]) else a :: s

/-- `Polynomial::eval_single` (src/polynomial/mod.rs lines 20-26): Horner
evaluation starting from the last stored coefficient.  The source indexes
`self.0[len-1]` and panics on an empty vector; the embedding returns `0`
there, a case that is never reached under the hypotheses of the theorems
below. -/
def eval_single (l : List F) (x : F) : F :=
  match l.getLast? with
  | none => 0
  | some c => (l.dropLast.reverse).foldl (fun acc a => acc * x + a) c

/-- Mathematical evaluation of a coefficient vector, used to state specs. -/
def evalPoly (l : List F) (x : F) : F :=
  ∑ i in Finset.range l.length, coeffAt l i * x ^ i

/-- Coefficient `i` of the product of two coefficient vectors (mathematical
convolution, used to state the division specs). -/
def convAt (a b : List F) (i : ℕ) : F :=
  ∑ j in Finset.range (i + 1), coeffAt a j * coeffAt b (i - j)

/-- One iteration of the schoolbook division loop of `long_division`
(src/polynomial/arithmetic.rs lines 117-125):

    while remainder.len() >= divisor_len {
        let i = remainder.len() - divisor_len;
        let c = *remainder.last().unwrap() * divisor.last().unwrap().invert().unwrap();
        quotient[i] = c;
        for j in 0..divisor_len { remainder[i + j] -= c * divisor[j]; }
        remainder.pop();
    }

The loop is driven by explicit fuel; every iteration shortens the remainder
by one, so fuel `dividend.length` always suffices. -/
def divLoop (v : List F) (dlen : ℕ) : ℕ → List F → List F → (List F × List F)
  | 0, q, rem => (q, rem)
  | fuel + 1, q, rem =>
    if rem.length < dlen then (q, rem)
    else
      let i := rem.length - dlen
      let c := rem.getLast?.getD 0 * (v.getLast?.getD 0)⁻¹
      let q2 := q.set i c
      let rem2 := ((List.range rem.length).map
        (fun k => if i ≤ k then rem.getD k 0 - c * coeffAt v (k - i) else rem.getD k 0)).dropLast
      divLoop v dlen fuel q2 rem2

/-- `Polynomial::long_division` (src/polynomial/arithmetic.rs lines 100-138)
with release (wrapping) `usize` semantics.  Returns `none` when the divisor
is all zeros (the `division by zero` assertion) or when
`dividend.len() - divisor_len + 1` wraps below zero so the quotient
allocation aborts; a dividend exactly one shorter than the stripped divisor
wraps to a zero-length quotient, exactly as in release Rust. -/
def long_division (dividend divisor : List F) : Option (List F × List F) :=
  let v := stripTrailZeros divisor
  if v.length = 0 then none
  else if dividend.length + 1 < v.length then none
  else
    let q0 := List.replicate (dividend.length + 1 - v.length) (0 : F)
    let p := divLoop v v.length dividend.length q0 dividend
    let rem := stripTrailZeros p.2
    let q := if isPow2 p.1.length then p.1
             else p.1 ++ List.replicate (nextPow2 p.1.length - p.1.length) 0
    some (q, rem)

/-- `Polynomial::shift_polynomial` (src/fri/mod.rs lines 115-121 and the
identical copy in src/stark/mod.rs lines 84-90): `w(x) = (f(x) - f(r))/(x - r)`
by long division.  `sub_constant` (src/polynomial/arithmetic.rs lines 185-189)
indexes coefficient 0 and the evaluation indexes the last coefficient, so an
empty polynomial panics: `none`. -/
def shift_polynomial (p : List F) (r : F) : Option (List F) :=
  if p.isEmpty then none
  else
    let e := eval_single p r
    let numerator := p.set 0 (coeffAt p 0 - e)
    let denominator := [0 - r, 1]
    (long_division numerator denominator).map Prod.fst

/-- One step of the log-computation loop `while y != 1 { y >>= 1; x += 1 }`
of `pop_zeros` (src/polynomial/mod.rs lines 38-43), as a step function on
`(x, y)` so that its behaviour for every starting `y`, including the
non-terminating `y = 0`, can be stated. -/
def shiftStep : ℕ × ℕ → ℕ × ℕ := fun p => if p.2 = 1 then p else (p.1 + 1, p.2 / 2)

/-- `Polynomial::pop_zeros` (src/polynomial/mod.rs lines 28-46): strip
trailing zeros, then re-pad to the next power of two using the floor-log
while-loop and `pad_to_base(x + 1)`.  `none` models the two panics/divergences
on this path: the log loop never terminates when the stripped length is `0`,
and `pad_to_base` asserts `size > len`. -/
def pop_zeros (l : List F) : Option (List F) :=
  let s := stripTrailZeros l
  if isPow2 s.length then some s
  else if s.length = 0 then none
  else
    let x := floorLog2 s.length
    if s.length < 2 ^ (x + 1)
    then some (s ++ List.replicate (2 ^ (x + 1) - s.length) 0)
    else none

/-- The `Domain` struct of src/domains/mod.rs. -/
structure DomainE (F : Type) where
  size : ℕ
  power_of_two : ℕ
  generator : F
  deriving DecidableEq

/-- `Domain::root_with_order_unchecked` (src/domains/mod.rs lines 22-35):
round the order up to a power of two, compute its log, then square
`ROOT_OF_UNITY` once for each step of `log_n..(max_power_of_two - 1)`,
i.e. `(S - 1) - log_n` times.  The field's 2-adicity `S` and its generator
`ROOT_OF_UNITY` of the order-`2^S` subgroup are parameters, as in the
generic Rust code. -/
def root_with_order_unchecked (S : ℕ) (rootOfUnity : F) (order : ℕ) : F :=
  let size := nextPow2 order
  let log_n := floorLog2 size
  (fun g => g * g)^[(S - 1) - log_n] rootOfUnity

/-- `Domain::new_for_size` (src/domains/mod.rs lines 37-60): same rounding,
but errs when `power_of_two > S` and squares `S - power_of_two` times. -/
def new_for_size (S : ℕ) (rootOfUnity : F) (size : ℕ) : Option (DomainE F) :=
  let size2 := nextPow2 size
  let power_of_two := floorLog2 size2
  if power_of_two > S then none
  else some ⟨size2, power_of_two, (fun g => g * g)^[S - power_of_two] rootOfUnity⟩

/-- The `bitreverse` helper of `serial_fft` (src/fft/serial.rs lines 5-13):
`l` iterations of `r = (r << 1) | (n & 1); n >>= 1`. -/
def brAux : ℕ → ℕ → ℕ → ℕ
  | 0, r, _ => r
  | l + 1, r, n => brAux l (2 * r + n % 2) (n / 2)

/-- `bitreverse(n, l)`. -/
def bitreverse (n l : ℕ) : ℕ := brAux l 0 n

/-- In-place `a.swap(i, j)` expressed on lists. -/
def listSwap (l : List F) (i j : ℕ) : List F :=
  (l.set i (l.getD j 0)).set j (l.getD i 0)

/-- The body of the bit-reversal loop of `serial_fft` (src/fft/serial.rs
lines 18-23): `let rk = bitreverse(k, log_n); if k < rk { a.swap(rk, k) }`. -/
def brStep (logn : ℕ) : List F → ℕ → List F := fun b k =>
  if k < bitreverse k logn then listSwap b k (bitreverse k logn) else b

/-- The bit-reversal pass of `serial_fft`: the loop `for k in 0..n`. -/
def bitrevPerm (a : List F) (logn : ℕ) : List F :=
  (List.range a.length).foldl (brStep logn) a

/-- One butterfly stage of `serial_fft` (src/fft/serial.rs lines 26-47) with
block half-width `m` and twiddle `wm = ω^(n/(2m))`.  Position `i` lies in the
block starting at `k = i - i % (2m)`; for `j := i % (2m) < m` the loop writes
`a[k+j] + w^j * a[k+j+m]` there, and for `j ≥ m` it writes
`a[k+(j-m)] - w^(j-m) * a[k+j]` (the running `w` is `wm` raised to the inner
loop counter). -/
def fftStage (a : List F) (wm : F) (m : ℕ) : List F :=
  (List.range a.length).map (fun i =>
    if i % (2 * m) < m then a.getD i 0 + wm ^ (i % (2 * m)) * a.getD (i + m) 0
    else a.getD (i - m) 0 - wm ^ (i % (2 * m) - m) * a.getD i 0)

/-- All `log_n` butterfly stages: `m = 1, 2, 4, …` with `wm = ω^(n/(2m))`. -/
def fftStages (a : List F) (ω : F) (logn : ℕ) : List F :=
  (List.range logn).foldl
    (fun b s => fftStage b (ω ^ (2 ^ logn / (2 * 2 ^ s))) (2 ^ s)) a

/-- The body of `serial_fft`: bit-reversal followed by the stages. -/
def fftCore (a : List F) (ω : F) (logn : ℕ) : List F :=
  fftStages (bitrevPerm a logn) ω logn

/-- `serial_fft` (src/fft/serial.rs lines 3-48); `none` models the
`assert_eq!(n, 1 << log_n)` panic. -/
def serial_fft (a : List F) (ω : F) (logn : ℕ) : Option (List F) :=
  if a.length = 2 ^ logn then some (fftCore a ω logn) else none

/-- `serial_ifft` (src/fft/serial.rs lines 50-56): `serial_fft` with `ω⁻¹`
then scaling by `len⁻¹`; `none` also models the `invert().unwrap()` panic
when the length is zero in `F`. -/
def serial_ifft (s : List F) (ω : F) (logn : ℕ) : Option (List F) :=
  if (s.length : F) = 0 then none
  else (serial_fft s ω⁻¹ logn).map (List.map (fun a => a * (s.length : F)⁻¹))

-- Even-index and odd-index subsequences, used to state the recursive
-- Cooley-Tukey decomposition of the iterative code.
mutual

def evens : List F → List F
  | [] => []
  | a :: t => a :: odds t

def odds : List F → List F
  | [] => []
  | _ :: t => evens t

end

/-- The recursive radix-2 decimation-in-time transform: the mathematical
description of what the iterative network computes. -/
def recFFT : ℕ → List F → F → List F
  | 0, a, _ => a
  | k + 1, a, ω =>
    ((List.range (2 ^ k)).map (fun i =>
      coeffAt (recFFT k (evens a) (ω * ω)) i +
        ω ^ i * coeffAt (recFFT k (odds a) (ω * ω)) i)) ++
    ((List.range (2 ^ k)).map (fun i =>
      coeffAt (recFFT k (evens a) (ω * ω)) i -
        ω ^ i * coeffAt (recFFT k (odds a) (ω * ω)) i))

/-- The discrete Fourier transform `X_k = Σ_j a_j ω^(jk)`, the specification
of the NTT. -/
def dftF (a : List F) (ω : F) : List F :=
  (List.range a.length).map
    (fun k => ∑ j in Finset.range a.length, coeffAt a j * ω ^ (j * k))

/-- Rust `usize::trailing_zeros` on a positive argument: fuel-structural count
of the factors of two. -/
def tzfuel : ℕ → ℕ → ℕ
  | 0, _ => 0
  | f + 1, n => if n % 2 = 1 then 0 else tzfuel f (n / 2) + 1

/-- Rust `usize::trailing_zeros`: the bit width 64 for 0, else the 2-adic
valuation. -/
def trailingZeros (n : ℕ) : ℕ := if n = 0 then 64 else tzfuel n n

/-- `Polynomial::divide_fft` (src/polynomial/arithmetic.rs lines 144-179):
extend the divisor with zeros to the dividend's length `n` (aborting when the
divisor is longer, from the wrapped `dividend.len() - divisor.len()`), set
`log_n = n.trailing_zeros()` and `kth_roots = n * log_n`, assert that
`kth_roots` is a power of two, take `omega` as the generator of
`Domain::new_for_size(kth_roots)`, run `serial_fft` on both buffers at size
`log_n`, divide pointwise (panicking on a zero divisor evaluation), run
`serial_ifft` at size `log_n`, and pop trailing zeros.  `S` and `rootOfUnity`
stand for the field constants `F::S` and `F::ROOT_OF_UNITY`. -/
def divide_fft (S : ℕ) (rootOfUnity : F) (dividend divisor : List F) :
    Option (List F) :=
  if dividend.length < divisor.length then none
  else
    let divisor2 := divisor ++ List.replicate (dividend.length - divisor.length) 0
    let n := dividend.length
    let log_n := trailingZeros n
    let kth := n * log_n
    if ¬ isPow2 kth then none
    else
      match new_for_size S rootOfUnity kth with
      | none => none
      | some d =>
        (serial_fft dividend d.generator log_n).bind (fun ev1 =>
          (serial_fft divisor2 d.generator log_n).bind (fun ev2 =>
            if ev2.any (fun x => x == 0) then none
            else
              (serial_ifft (List.zipWith (fun x y => x * y⁻¹) ev1 ev2)
                  d.generator log_n).map stripTrailZeros))

/-- The division pipeline exactly as the specification sentence describes it
(the spec-side twin of `divide_fft`, for the refinement comparison): zero-pad
the divisor to the dividend's length, pad both buffers further to length
`n * log₂ n`, forward-transform both at that size, pointwise divide,
inverse-transform, strip trailing zeros. -/
def divideFFTSpecDescribed (S : ℕ) (rootOfUnity : F) (dividend divisor : List F) :
    Option (List F) :=
  if dividend.length < divisor.length then none
  else
    let divisor2 := divisor ++ List.replicate (dividend.length - divisor.length) 0
    let n := dividend.length
    let log_n := trailingZeros n
    let kth := n * log_n
    if ¬ isPow2 kth then none
    else
      match new_for_size S rootOfUnity kth with
      | none => none
      | some d =>
        let dividendP := dividend ++ List.replicate (kth - n) 0
        let divisorP := divisor2 ++ List.replicate (kth - n) 0
        let logK := floorLog2 kth
        (serial_fft dividendP d.generator logK).bind (fun ev1 =>
          (serial_fft divisorP d.generator logK).bind (fun ev2 =>
            if ev2.any (fun x => x == 0) then none
            else
              (serial_ifft (List.zipWith (fun x y => x * y⁻¹) ev1 ev2)
                  d.generator logK).map stripTrailZeros))

/-- The division pipeline as amended: the transforms run at the dividend's own
size `n = 2^log_n` (no buffer is padded to `n * log₂ n`); the product
`n * log₂ n` only selects the order of the domain whose generator is used as
the twiddle root. -/
def divideFFTAmended (S : ℕ) (rootOfUnity : F) (dividend divisor : List F) :
    Option (List F) :=
  let n := dividend.length
  let logn := trailingZeros n
  if divisor.length ≤ n ∧ isPow2 (n * logn) then
    (new_for_size S rootOfUnity (n * logn)).bind (fun d =>
      (serial_fft dividend d.generator logn).bind (fun de =>
        (serial_fft (divisor ++ List.replicate (n - divisor.length) 0)
            d.generator logn).bind (fun ve =>
          if ve.all (fun x => !(x == 0)) then
            (serial_ifft (List.zipWith (fun x y => x * y⁻¹) de ve)
                d.generator logn).map stripTrailZeros
          else none)))
  else none

/-! ### The FRI layer: hashes, authentication paths, proofs

BLAKE3 hashes are modelled by the free hash algebra `HashT`: `leafH x y` is
`blake3(repr x || repr y)` for two field elements, `nodeH h k` is
`blake3(h.bytes || k.bytes)` for two hashes, and `zeroH` is
`Hash::from(ZERO_BYTES)`.  Distinct constructor trees are distinct values,
mirroring collision-free hashing; the byte-level reinterpretations
`interpret_as_element` and `interpret_as_root_of_unity` become abstract
parameters `interpE : HashT F → F` and `interpR : HashT F → ℕ → F`. -/

inductive HashT (F : Type) where
  | zeroH : HashT F
  | leafH : F → F → HashT F
  | nodeH : HashT F → HashT F → HashT F
deriving DecidableEq

/-- `AuthenticationHash` (src/fri/mod.rs lines 17-20): a sibling hash plus the
flag saying it comes first in the parent's hash input. -/
structure AuthHashE (F : Type) where
  hash : HashT F
  is_first : Bool
deriving DecidableEq

/-- `AuthenticationPath` (src/fri/mod.rs lines 22-27). -/
structure AuthPathE (F : Type) where
  first_evaluation : F
  second_evaluation : F
  authentication_path : List (AuthHashE F)
deriving DecidableEq

/-- `FriChallenge` (src/fri/mod.rs lines 44-52); `FriChallenge::new` is the
plain constructor, so the structure constructor embeds it.  A
`FriCommitment` is its underlying hash (`value()`). -/
structure FriChallengeE (F : Type) where
  positive_evaluation : F
  negative_evaluation : F
  positive_authentication_path : AuthPathE F
  negative_authentication_path : AuthPathE F
  authentication_vector : List (AuthPathE F)
  fold_queries : List F
  commitment_vector : List (HashT F)
deriving DecidableEq

/-- `FriProof` (lib.rs): a commitment for `w(x)` plus the challenge. -/
structure FriProofE (F : Type) where
  w_com : HashT F
  fri_challenge : FriChallengeE F
deriving DecidableEq

/-- The loop body of `derive_root` (src/fri/authentication.rs lines 41-52):
hash the stored sibling on its stated side of the running target. -/
def authCombine : HashT F → AuthHashE F → HashT F := fun t ah =>
  if ah.is_first then HashT.nodeH ah.hash t else HashT.nodeH t ah.hash

/-- `AuthenticationPath::derive_root` (src/fri/authentication.rs lines 22-54):
hash the two evaluations, then absorb each stored sibling on the stated
side. -/
def derive_root (ap : AuthPathE F) : HashT F :=
  ap.authentication_path.foldl authCombine
    (HashT.leafH ap.first_evaluation ap.second_evaluation)

/-- `AuthenticationPath::contains_evaluation` (src/fri/authentication.rs
lines 56-58). -/
def contains_evaluation (ap : AuthPathE F) (evaluation : F) : Bool :=
  (ap.first_evaluation == evaluation) || (ap.second_evaluation == evaluation)

/-- The first loop of `FriProof::verify` (src/fri/proof.rs lines 74-76): for
each authentication path, index into `fold_queries` (a panic — `none` — when
it is exhausted first) and check membership; `some false` is the early
`InvalidProof` return. -/
def containsLoop : List (AuthPathE F) → List F → Option Bool
  | [], _ => some true
  | _ :: _, [] => none
  | ap :: arest, q :: qrest =>
    if ¬ contains_evaluation ap q then some false
    else containsLoop arest qrest

/-- The second loop of `FriProof::verify` (src/fri/proof.rs lines 83-85): for
each authentication path, index into `commitment_vector` (`none` on
out-of-bounds) and compare its derived root. -/
def rootsLoop : List (AuthPathE F) → List (HashT F) → Option Bool
  | [], _ => some true
  | _ :: _, [] => none
  | ap :: arest, c :: crest =>
    if derive_root ap ≠ c then some false
    else rootsLoop arest crest

/-- The evals-array initialisation of `query_check` (src/fri/fold.rs lines
74-80): each of the `FRI_BLOWUP_FACTOR/2` slots of a `ZERO_BYTES` array is
overwritten with `blake3(assembled || assembled)`. -/
def qcEvalsInit (assembled : F) : List (HashT F) :=
  (List.range (FRI_BLOWUP_FACTOR / 2)).foldl
    (fun es i => es.set i (HashT.leafH assembled assembled))
    (List.replicate (FRI_BLOWUP_FACTOR / 2) HashT.zeroH)

/-- One pass of the in-place pairing loop of `query_check` (src/fri/fold.rs
lines 83-88): `evals[c] = blake3(evals[i] || evals[i+1])` for `i = 2c`,
reading from the partially overwritten array exactly as the source does. -/
def qcPairRound (es : List (HashT F)) : List (HashT F) :=
  (List.range ((es.length + 1) / 2)).foldl
    (fun b c =>
      b.set c (HashT.nodeH (b.getD (2 * c) HashT.zeroH) (b.getD (2 * c + 1) HashT.zeroH)))
    es

/-- The query loop of `query_check` (src/fri/fold.rs lines 65-72), recursing
over the fold queries with the running `(target, assembled)` state: `none`
models the `commitment_vector()[i]` out-of-bounds panic and the
`invert().unwrap()` panics. -/
def qcLoop (interpE : HashT F → F) (cv : List (HashT F)) :
    List F → ℕ → F → F → Option (F × F)
  | [], _, target, assembled => some (target, assembled)
  | q :: qrest, i, target, assembled =>
    if h : i < cv.length then
      if (2 : F) = 0 then none
      else if (2 : F) * target = 0 then none
      else
        qcLoop interpE cv qrest (i + 1) (target * target)
          ((assembled + q) * (2 : F)⁻¹ +
            interpE (cv.get ⟨i, h⟩) * ((assembled - q) * ((2 : F) * target)⁻¹))
    else none

/-- `FriChallenge::query_check` (src/fri/fold.rs lines 57-92): reassemble the
claimed constant value from the queries, then rebuild the tiny Merkle root of
its `FRI_BLOWUP_FACTOR/2` duplicated evaluations. -/
def query_check (interpE : HashT F → F) (ch : FriChallengeE F)
    (top_commitment : HashT F) (random_root_of_unity : F) : Option (HashT F) :=
  if (2 : F) = 0 then none
  else if (2 : F) * random_root_of_unity = 0 then none
  else
    let alpha := interpE top_commitment
    let even := (ch.positive_evaluation + ch.negative_evaluation) * (2 : F)⁻¹
    let odd := (ch.positive_evaluation - ch.negative_evaluation) *
      ((2 : F) * random_root_of_unity)⁻¹
    (qcLoop interpE ch.commitment_vector ch.fold_queries 0
        (random_root_of_unity * random_root_of_unity) (even + alpha * odd)).map
      (fun p =>
        (qcPairRound^[FRI_BLOWUP_LOG - 1] (qcEvalsInit p.2)).getD 0 HashT.zeroH)

/-- `VerificationResult` (src/fri/mod.rs lines 54-58). -/
inductive VerificationResult where
  | ValidProof : VerificationResult
  | InvalidProof : VerificationResult
deriving DecidableEq

/-- `FriProof::verify` (src/fri/proof.rs lines 69-101).  `none` models the
panics: a `fold_queries`/`commitment_vector` out-of-bounds index, the
`last().unwrap()` on an empty commitment vector, and the unwraps inside
`query_check`. -/
def verify (interpE : HashT F → F) (interpR : HashT F → ℕ → F)
    (pr : FriProofE F) : Option VerificationResult :=
  let ch := pr.fri_challenge
  if ¬ contains_evaluation ch.positive_authentication_path ch.positive_evaluation then
    some VerificationResult.InvalidProof
  else if ¬ contains_evaluation ch.negative_authentication_path ch.negative_evaluation then
    some VerificationResult.InvalidProof
  else
    (containsLoop ch.authentication_vector ch.fold_queries).bind (fun ok1 =>
      if ¬ ok1 then some VerificationResult.InvalidProof
      else if pr.w_com ≠ derive_root ch.positive_authentication_path then
        some VerificationResult.InvalidProof
      else if pr.w_com ≠ derive_root ch.negative_authentication_path then
        some VerificationResult.InvalidProof
      else
        (rootsLoop ch.authentication_vector ch.commitment_vector).bind (fun ok2 =>
          if ¬ ok2 then some VerificationResult.InvalidProof
          else
            match ch.commitment_vector.getLast? with
            | none => none
            | some lastC =>
              (query_check interpE ch pr.w_com
                  (interpR lastC (2 ^ (ch.commitment_vector.length + FRI_BLOWUP_LOG)))).bind
                (fun sbc =>
                  if sbc ≠ lastC then some VerificationResult.InvalidProof
                  else some VerificationResult.ValidProof)))

/-- `Polynomial::log_n` (src/polynomial/mod.rs lines 91-99): the floor-log
while-loop applied to `next_power_of_two(len)`, i.e. `⌈log₂ len⌉` (and `0`
for the empty polynomial, since `next_power_of_two(0) = 1`). -/
def poly_log_n (p : List F) : ℕ := floorLog2 (nextPow2 p.length)

/-- Hash-list access with the `ZERO_BYTES` default (never reached under the
length invariants proved below). -/
def hashAt (l : List (HashT F)) (i : ℕ) : HashT F := l.getD i HashT.zeroH

/-- The leaf round shared by `commitment` (src/fri/commitment.rs lines 53-59)
and `authentication_path_for`: hash each adjacent pair of evaluations. -/
def leafRound (e : List F) : List (HashT F) :=
  (List.range (e.length / 2)).map
    (fun i => HashT.leafH (coeffAt e (2 * i)) (coeffAt e (2 * i + 1)))

/-- One Merkle round (src/fri/commitment.rs lines 61-70 and
src/fri/authentication.rs lines 113-120): hash each adjacent pair of hashes
into a fresh vector. -/
def pairRoundM (hs : List (HashT F)) : List (HashT F) :=
  (List.range (hs.length / 2)).map
    (fun i => HashT.nodeH (hashAt hs (2 * i)) (hashAt hs (2 * i + 1)))

/-- `Polynomial::commitment` (src/fri/commitment.rs lines 15-73): NTT the
zero-extended coefficients at `extended_log_n = log₂ len + FRI_BLOWUP_LOG`
with the `root_with_order_unchecked` twiddle root, then fold the Merkle
tree.  `none` models the panics: the floor-log while-loop diverges on length
0, `serial_fft` asserts the buffer length is `2^extended_log_n` (so `len`
must be a power of two), and the final `assert!(hash_vector.len() == 1)`. -/
def commitment (S : ℕ) (rootOfUnity : F) (p : List F) : Option (HashT F) :=
  if p.length = 0 then none
  else
    let log_n := floorLog2 p.length
    let extended_log_n := log_n + FRI_BLOWUP_LOG
    let ω := root_with_order_unchecked S rootOfUnity (FRI_BLOWUP_FACTOR * p.length)
    (serial_fft (p ++ List.replicate (2 ^ extended_log_n - 2 ^ log_n) 0)
        ω extended_log_n).bind
      (fun evaluations =>
        let hv := pairRoundM^[extended_log_n - 1] (leafRound evaluations)
        if hv.length = 1 then some (hashAt hv 0) else none)

/-- The pair search of `authentication_path_for` (src/fri/authentication.rs
lines 92-104): the index of the first evaluation pair containing the target
(the source records the pair at `i/2` only while `first_evaluation` is still
`None`, and pushes every other pair's leaf hash). -/
def findPairIdx (e : List F) (target : F) : Option ℕ :=
  (List.range (e.length / 2)).find?
    (fun i => (coeffAt e (2 * i) == target) || (coeffAt e (2 * i + 1) == target))

/-- The upward loop of `authentication_path_for` (src/fri/authentication.rs
lines 107-122), with the loop count as fuel and state
`(hash_vec, index, authentication_vec)`: remove the sibling of the tracked
node (`Vec::remove` panics out of bounds — `none`), record it with its side,
pair up the remaining hashes (the pairing loop indexes `hash_vec[j+1]`, a
panic — `none` — on an odd length) and halve the index. -/
def authLoop : ℕ → List (HashT F) → ℕ → List (AuthHashE F) →
    Option (List (HashT F) × ℕ × List (AuthHashE F))
  | 0, hv, idx, av => some (hv, idx, av)
  | k + 1, hv, idx, av =>
    let rIdx := if idx % 2 = 0 then idx else idx - 1
    if hr : rIdx < hv.length then
      let hv2 := hv.eraseIdx rIdx
      if hv2.length % 2 = 0 then
        authLoop k (pairRoundM hv2) (idx / 2)
          (av ++ [⟨hv.get ⟨rIdx, hr⟩, idx % 2 == 1⟩])
      else none
    else none

/-- `Polynomial::authentication_path_for` (src/fri/authentication.rs lines
76-129): evaluate the target, NTT the zero-extended coefficients exactly as
`commitment` does, locate the first pair containing the target (the
`assert!(first_evaluation.is_some())` panic is `none`), then walk the tree
upward collecting siblings; the final sibling's side flag is `index != 0`
and `assert!(hash_vec.len() == 1)` guards the exit. -/
def authentication_path_for (S : ℕ) (rootOfUnity : F) (p : List F) (root : F) :
    Option (AuthPathE F) :=
  let target := eval_single p root
  let log_n := poly_log_n p + FRI_BLOWUP_LOG
  let gen := root_with_order_unchecked S rootOfUnity (p.length * FRI_BLOWUP_FACTOR)
  (serial_fft (p ++ List.replicate (2 ^ log_n - 2 ^ poly_log_n p) 0) gen log_n).bind
    (fun evaluations =>
      match findPairIdx evaluations target with
      | none => none
      | some idx =>
        (authLoop (log_n - 2) ((leafRound evaluations).eraseIdx idx) idx []).bind
          (fun res =>
            if res.1.length = 1 then
              some ⟨coeffAt evaluations (2 * idx), coeffAt evaluations (2 * idx + 1),
                res.2.2 ++ [⟨hashAt res.1 0, !(res.2.1 == 0)⟩]⟩
            else none))

/-- One fold of `fold_full` (src/fri/fold.rs lines 30-32 and 41-43):
`folded[j] = p[2j] + p[2j+1] * r`. -/
def fold_once (r : F) (p : List F) : List F :=
  (List.range (p.length / 2)).map
    (fun j => coeffAt p (2 * j) + coeffAt p (2 * j + 1) * r)

/-- The main loop of `fold_full` (src/fri/fold.rs lines 35-49), with the loop
count as fuel: each pass records the intermediate polynomial, commits to it,
reinterprets the commitment as the next folding challenge and folds; the
epilogue pushes the final intermediate and its commitment. -/
def foldLoop (S : ℕ) (rootOfUnity : F) (interpE : HashT F → F) :
    ℕ → List F → List (HashT F) → List (List F) →
    Option (List (HashT F) × List (List F))
  | 0, intermediate, cv, pv =>
    (commitment S rootOfUnity intermediate).map
      (fun c => (cv ++ [c], pv ++ [intermediate]))
  | k + 1, intermediate, cv, pv =>
    (commitment S rootOfUnity intermediate).bind (fun com =>
      foldLoop S rootOfUnity interpE k (fold_once (interpE com) intermediate)
        (cv ++ [com]) (pv ++ [intermediate]))

/-- `Polynomial::fold_full` (src/fri/fold.rs lines 12-52).  `none` models the
divergences: the floor-log while-loop on an empty polynomial, the panics
inside `commitment`, and — for a length-1 polynomial, where `log_n = 0` —
the wrapped loop bound `0..(log_n - 1) = 0..usize::MAX`, whose first pass
calls `commitment` on the empty folded polynomial and hangs in its
floor-log while-loop. -/
def fold_full (S : ℕ) (rootOfUnity : F) (interpE : HashT F → F) (p : List F) :
    Option (List (HashT F) × List (List F)) :=
  if p.length = 0 then none
  else
    (commitment S rootOfUnity p).bind (fun com =>
      let intermediate := fold_once (interpE com) p
      if floorLog2 p.length = 0 then none
      else foldLoop S rootOfUnity interpE (floorLog2 p.length - 1) intermediate [] [])

/-- The query loop of `evaluation_proof` (src/fri/proof.rs lines 49-54): for
each intermediate polynomial except the last, record an authentication path
and an evaluation at `-target`, squaring the target each pass. -/
def queryLoop (S : ℕ) (rootOfUnity : F) :
    List (List F) → F → List (AuthPathE F) → List F →
    Option (List (AuthPathE F) × List F)
  | [], _, av, qv => some (av, qv)
  | poly :: rest, target, av, qv =>
    (authentication_path_for S rootOfUnity poly (-target)).bind (fun ap =>
      queryLoop S rootOfUnity rest (target * target)
        (av ++ [ap]) (qv ++ [eval_single poly (-target)]))

/-- `FriProof::evaluation_proof` (src/fri/proof.rs lines 19-67): shift the
polynomial at the supplied point (or at its own commitment reinterpreted as
a field element), commit to `w(x)`, fold it, reinterpret the last fold
commitment as a root of unity of the blown-up domain, and assemble the
challenge with the two boundary authentication paths and the per-layer
queries. -/
def evaluation_proof (S : ℕ) (rootOfUnity : F) (interpE : HashT F → F)
    (interpR : HashT F → ℕ → F) (f_x : List F) (r : Option F) :
    Option (FriProofE F) :=
  (match r with
    | some x => shift_polynomial f_x x
    | none => (commitment S rootOfUnity f_x).bind
        (fun c => shift_polynomial f_x (interpE c))).bind
    (fun w_x =>
      (commitment S rootOfUnity w_x).bind (fun w_commitment =>
        (fold_full S rootOfUnity interpE w_x).bind (fun cvpv =>
          match cvpv.1.getLast? with
          | none => none
          | some lastC =>
            let rrou := interpR lastC (nextPow2 f_x.length * FRI_BLOWUP_FACTOR)
            (authentication_path_for S rootOfUnity w_x rrou).bind (fun pap =>
              (authentication_path_for S rootOfUnity w_x (-rrou)).bind (fun nap =>
                (queryLoop S rootOfUnity (cvpv.2.take (cvpv.2.length - 1))
                    (rrou * rrou) [] []).map
                  (fun (avqv : List (AuthPathE F) × List F) =>
                    ⟨w_commitment,
                      ⟨eval_single w_x rrou, eval_single w_x (-rrou), pap, nap,
                        avqv.1, avqv.2, cvpv.1⟩⟩))))))

/-! ### Basic lemmas about coefficient access and trailing-zero stripping -/

theorem coeffAt_nil (i : ℕ) : coeffAt ([] : List F) i = 0 := rfl

theorem coeffAt_cons_succ (a : F) (t : List F) (i : ℕ) :
    coeffAt (a :: t) (i + 1) = coeffAt t i := rfl

theorem coeffAt_of_le (l : List F) (i : ℕ) (h : l.length ≤ i) : coeffAt l i = 0 :=
  List.getD_eq_default l 0 h

theorem coeffAt_of_lt (l : List F) (i : ℕ) (h : i < l.length) :
    coeffAt l i = l.get ⟨i, h⟩ := by
  show (l.get? i).getD 0 = _
  rw [List.get?_eq_get h]; rfl

theorem coeffAt_set_ne (l : List F) (i j : ℕ) (c : F) (h : i ≠ j) :
    coeffAt (l.set i c) j = coeffAt l j := by
  simp [coeffAt, List.getD, List.getElem?_set_ne h]

theorem coeffAt_set_self (l : List F) (i : ℕ) (c : F) (h : i < l.length) :
    coeffAt (l.set i c) i = c := by
  simp [coeffAt, List.getD, List.getElem?_set_self, h]

theorem coeffAt_rangeMap (n i : ℕ) (f : ℕ → F) (h : i < n) :
    coeffAt ((List.range n).map f) i = f i := by
  simp [coeffAt, List.getD, List.getElem?_map, h]

theorem coeffAt_dropLast (l : List F) (i : ℕ) (h : i < l.length - 1) :
    coeffAt l.dropLast i = coeffAt l i := by
  show (l.dropLast.get? i).getD 0 = (l.get? i).getD 0
  have h1 : i < l.dropLast.length := by simp; omega
  have h2 : i < l.length := by omega
  rw [List.get?_eq_get h1, List.get?_eq_get h2]
  simp [List.get_eq_getElem, List.getElem_dropLast]

theorem coeffAt_append_replicate (l : List F) (m i : ℕ) :
    coeffAt (l ++ List.replicate m 0) i = coeffAt l i := by
  rcases lt_or_le i l.length with h | h
  · simp [coeffAt, List.getD, List.getElem?_append_left h]
  · rw [coeffAt_of_le l i h]
    rcases lt_or_le i (l.length + m) with h2 | h2
    · rw [coeffAt_of_lt _ i (by simpa using h2)]
      simp only [List.get_eq_getElem, List.getElem_append_right h]
      exact List.getElem_replicate ..
    · exact coeffAt_of_le _ i (by simpa using h2)

theorem getLast_getD_eq_coeffAt (l : List F) :
    l.getLast?.getD 0 = coeffAt l (l.length - 1) := by
  induction l with
  | nil => rfl
  | cons a t ih =>
    cases t with
    | nil => rfl
    | cons b u =>
      rw [List.getLast?_cons_cons, ih]
      simp [coeffAt]

theorem stripTrailZeros_length_le (l : List F) :
    (stripTrailZeros l).length ≤ l.length := by
  induction l with
  | nil => simp [stripTrailZeros]
  | cons a t ih =>
    simp only [stripTrailZeros]
    rcases h : (stripTrailZeros t).isEmpty with _ | _
    · simpa [h] using ih
    · simp only [h, if_true]
      split <;> simp

theorem stripTrailZeros_eq_nil_iff (l : List F) :
    stripTrailZeros l = [] ↔ ∀ i, coeffAt l i = 0 := by
  induction l with
  | nil => simp [stripTrailZeros, coeffAt_nil]
  | cons a t ih =>
    simp only [stripTrailZeros]
    constructor
    · intro h i
      rcases he : (stripTrailZeros t).isEmpty with _ | _
      · simp [he] at h
      · simp only [he, if_true] at h
        split at h
        · rename_i ha
          have ht : ∀ i, coeffAt t i = 0 := ih.mp (List.isEmpty_iff.mp he)
          cases i with
          | zero => simpa [coeffAt] using ha
          | succ j => rw [coeffAt_cons_succ]; exact ht j
        · exact absurd h (by simp)
    · intro h
      have ht : stripTrailZeros t = [] := ih.mpr (fun i => h (i + 1))
      have ha : a = 0 := by simpa [coeffAt] using h 0
      simp [ht, ha]

theorem coeffAt_stripTrailZeros (l : List F) (i : ℕ) :
    coeffAt (stripTrailZeros l) i = coeffAt l i := by
  induction l generalizing i with
  | nil => rfl
  | cons a t ih =>
    simp only [stripTrailZeros]
    rcases he : (stripTrailZeros t).isEmpty with _ | _
    · simp only [he, Bool.false_eq_true, if_false]
      cases i with
      | zero => simp [coeffAt]
      | succ j => rw [coeffAt_cons_succ, coeffAt_cons_succ, ih]
    · have ht : ∀ k, coeffAt t k = 0 :=
        (stripTrailZeros_eq_nil_iff t).mp (List.isEmpty_iff.mp he)
      simp only [he, if_true]
      split
      · rename_i ha
        cases i with
        | zero => simp [coeffAt_nil, coeffAt, ha]
        | succ j => rw [coeffAt_nil, coeffAt_cons_succ, ht j]
      · cases i with
        | zero => simp [coeffAt]
        | succ j =>
          rw [coeffAt_cons_succ, coeffAt_cons_succ, coeffAt_nil, ht j]

theorem stripTrailZeros_getLast_ne (l : List F) (h : stripTrailZeros l ≠ []) :
    coeffAt (stripTrailZeros l) ((stripTrailZeros l).length - 1) ≠ 0 := by
  induction l with
  | nil => simp [stripTrailZeros] at h
  | cons a t ih =>
    simp only [stripTrailZeros] at h ⊢
    rcases he : (stripTrailZeros t).isEmpty with _ | _
    · have hne : stripTrailZeros t ≠ [] := by
        intro hc; rw [hc] at he; simp at he
      simp only [he, Bool.false_eq_true, if_false] at h ⊢
      have hpos : 0 < (stripTrailZeros t).length := List.length_pos.mpr hne
      have hlen : (stripTrailZeros t).length - 1 + 1 =
          (a :: stripTrailZeros t).length - 1 := by
        simp only [List.length_cons]
        omega
      rw [← hlen, coeffAt_cons_succ]
      exact ih hne
    · simp only [he, if_true] at h ⊢
      by_cases ha : a = 0
      · rw [if_pos ha] at h
        exact absurd rfl h
      · rw [if_neg ha]
        simpa [coeffAt] using ha

theorem stripTrailZeros_ne_nil (l : List F) (h : ∃ i, coeffAt l i ≠ 0) :
    stripTrailZeros l ≠ [] := by
  intro hc
  obtain ⟨i, hi⟩ := h
  exact hi ((stripTrailZeros_eq_nil_iff l).mp hc i)

theorem coeffAt_beyond_strip (l : List F) (i : ℕ)
    (h : (stripTrailZeros l).length ≤ i) : coeffAt l i = 0 := by
  rw [← coeffAt_stripTrailZeros]
  exact coeffAt_of_le _ i h

/-! ### Correctness of the schoolbook division loop -/

theorem convAt_congr (a b b' : List F) (i : ℕ)
    (h : ∀ k, coeffAt b k = coeffAt b' k) : convAt a b i = convAt a b' i := by
  unfold convAt
  exact Finset.sum_congr rfl (fun j _ => by rw [h])

theorem convAt_congr_left (a a' b : List F) (i : ℕ)
    (h : ∀ k, coeffAt a k = coeffAt a' k) : convAt a b i = convAt a' b i := by
  unfold convAt
  exact Finset.sum_congr rfl (fun j _ => by rw [h])

theorem exists_coeff_ne_of_mem (l : List F) (h : ∃ x ∈ l, x ≠ 0) :
    ∃ i, coeffAt l i ≠ 0 := by
  obtain ⟨x, hx, hxne⟩ := h
  obtain ⟨⟨i, hi⟩, rfl⟩ := List.mem_iff_get.mp hx
  exact ⟨i, by rwa [coeffAt_of_lt _ _ hi]⟩

theorem divLoop_correct (dividend v : List F) (hv : v ≠ [])
    (hlast : coeffAt v (v.length - 1) ≠ 0) :
    ∀ (fuel : ℕ) (q rem : List F),
      rem.length ≤ fuel →
      q.length + v.length = dividend.length + 1 →
      rem.length ≤ dividend.length →
      (∀ j, j + v.length ≤ rem.length → coeffAt q j = 0) →
      (∀ i, coeffAt dividend i = convAt q v i + coeffAt rem i) →
      (∀ i, coeffAt dividend i =
          convAt (divLoop v v.length fuel q rem).1 v i +
          coeffAt (divLoop v v.length fuel q rem).2 i) ∧
      (divLoop v v.length fuel q rem).2.length < v.length := by
  have hvpos : 0 < v.length := List.length_pos.mpr hv
  intro fuel
  induction fuel with
  | zero =>
    intro q rem hfuel _ _ _ hinv
    refine ⟨hinv, ?_⟩
    simpa [divLoop] using lt_of_le_of_lt hfuel hvpos
  | succ fuel ih =>
    intro q rem hfuel hqlen hremlen hzero hinv
    by_cases hstop : rem.length < v.length
    · have hred : divLoop v v.length (fuel + 1) q rem = (q, rem) := by
        simp [divLoop, hstop]
      rw [hred]
      exact ⟨hinv, hstop⟩
    · push_neg at hstop
      simp only [divLoop, if_neg (not_lt.mpr hstop)]
      set i := rem.length - v.length with hidef
      set c := rem.getLast?.getD 0 * (v.getLast?.getD 0)⁻¹ with hcdef
      set q2 := q.set i c with hq2
      set sub := (List.range rem.length).map
        (fun k => if i ≤ k then rem.getD k 0 - c * coeffAt v (k - i) else rem.getD k 0)
        with hsub
      have hsublen : sub.length = rem.length := by simp [hsub]
      have hrem2len : sub.dropLast.length = rem.length - 1 := by
        simp [List.length_dropLast, hsublen]
      have hine : i + v.length = rem.length := by omega
      -- the coefficient characterisation of the updated remainder
      have key : ∀ k, coeffAt sub.dropLast k =
          coeffAt rem k - c * (if i ≤ k then coeffAt v (k - i) else 0) := by
        intro k
        rcases lt_trichotomy k (rem.length - 1) with hk | hk | hk
        · rw [coeffAt_dropLast _ _ (by omega), coeffAt_rangeMap _ _ _ (by omega)]
          show (if i ≤ k then coeffAt rem k - c * coeffAt v (k - i) else coeffAt rem k) = _
          by_cases hik : i ≤ k <;> simp [hik]
        · subst hk
          rw [coeffAt_of_le _ _ (by omega)]
          have hil : i ≤ rem.length - 1 := by omega
          rw [if_pos hil]
          have hvidx : rem.length - 1 - i = v.length - 1 := by omega
          rw [hvidx]
          have hclast : c * coeffAt v (v.length - 1) = coeffAt rem (rem.length - 1) := by
            rw [hcdef, getLast_getD_eq_coeffAt, getLast_getD_eq_coeffAt]
            field_simp
          rw [hclast]
          ring
        · rw [coeffAt_of_le _ _ (by omega), coeffAt_of_le _ _ (by omega)]
          by_cases hik : i ≤ k
          · rw [if_pos hik, coeffAt_of_le _ _ (by omega)]
            ring
          · rw [if_neg hik]; ring
      have hiq : i < q.length := by omega
      have hq2at : ∀ j, coeffAt q2 j = if j = i then c else coeffAt q j := by
        intro j
        by_cases hj : j = i
        · subst hj; rw [if_pos rfl, hq2, coeffAt_set_self _ _ _ hiq]
        · rw [if_neg hj, hq2, coeffAt_set_ne _ _ _ _ (fun he => hj he.symm)]
      have hqi0 : coeffAt q i = 0 := hzero i (by omega)
      -- the invariant is preserved
      have hinv2 : ∀ d, coeffAt dividend d =
          convAt q2 v d + coeffAt sub.dropLast d := by
        intro d
        rw [key d]
        have hconv : convAt q2 v d =
            convAt q v d + (if i ≤ d then c * coeffAt v (d - i) else 0) := by
          by_cases hid : i ≤ d
          · rw [if_pos hid]
            have hmem : i ∈ Finset.range (d + 1) := Finset.mem_range.mpr (by omega)
            unfold convAt
            rw [← Finset.add_sum_erase _ _ hmem, ← Finset.add_sum_erase _
              (fun j => coeffAt q j * coeffAt v (d - j)) hmem]
            have : ∀ j ∈ (Finset.range (d + 1)).erase i,
                coeffAt q2 j * coeffAt v (d - j) = coeffAt q j * coeffAt v (d - j) := by
              intro j hj
              rw [hq2at j, if_neg (Finset.mem_erase.mp hj).1]
            rw [Finset.sum_congr rfl this, hq2at i, if_pos rfl, hqi0]
            ring
          · rw [if_neg hid]
            unfold convAt
            rw [Finset.sum_congr rfl (fun j hj => ?_)]
            · ring
            · rw [hq2at j, if_neg]
              intro hji
              exact hid (by subst hji; exact Nat.le_of_lt_succ (Finset.mem_range.mp hj))
        rw [hconv, hinv d]
        by_cases hid : i ≤ d <;> simp only [hid, if_true, if_false] <;> ring
      have hzero2 : ∀ j, j + v.length ≤ sub.dropLast.length → coeffAt q2 j = 0 := by
        intro j hj
        rw [hrem2len] at hj
        have hji : j ≠ i := by omega
        rw [hq2at j, if_neg hji]
        exact hzero j (by omega)
      have := ih q2 sub.dropLast (by omega) (by simpa [hq2] using hqlen)
        (by omega) hzero2 hinv2
      exact this

/-- Helper: `long_division` succeeds and satisfies the division identity
whenever the divisor has a non-zero coefficient and the dividend is not more
than one shorter than the stripped divisor. -/
theorem long_division_some (dividend divisor : List F)
    (hnz : ∃ x ∈ divisor, x ≠ 0)
    (hlen : (stripTrailZeros divisor).length ≤ dividend.length + 1) :
    ∃ q rem, long_division dividend divisor = some (q, rem) ∧
      (∀ i, coeffAt dividend i = convAt q divisor i + coeffAt rem i) ∧
      rem.length < (stripTrailZeros divisor).length ∧
      (rem ≠ [] → coeffAt rem (rem.length - 1) ≠ 0) := by
  set v := stripTrailZeros divisor with hv
  have hvne : v ≠ [] := stripTrailZeros_ne_nil divisor (exists_coeff_ne_of_mem divisor hnz)
  have hvpos : 0 < v.length := List.length_pos.mpr hvne
  have hvlast : coeffAt v (v.length - 1) ≠ 0 := stripTrailZeros_getLast_ne divisor hvne
  set q0 := List.replicate (dividend.length + 1 - v.length) (0 : F) with hq0
  have hq0len : q0.length + v.length = dividend.length + 1 := by
    simp [hq0]; omega
  have hq0at : ∀ j, coeffAt q0 j = 0 := by
    intro j
    rcases lt_or_le j q0.length with h | h
    · rw [coeffAt_of_lt _ _ h]
      simp [hq0]
    · exact coeffAt_of_le _ _ h
  have hinv0 : ∀ i, coeffAt dividend i = convAt q0 v i + coeffAt dividend i := by
    intro i
    have : convAt q0 v i = 0 := by
      unfold convAt
      exact Finset.sum_eq_zero (fun j _ => by rw [hq0at j]; ring)
    rw [this]; ring
  obtain ⟨hinv, hlt⟩ := divLoop_correct dividend v hvne hvlast dividend.length q0 dividend
    le_rfl hq0len le_rfl (fun j hj => hq0at j) hinv0
  set p := divLoop v v.length dividend.length q0 dividend with hp
  set qf := if isPow2 p.1.length then p.1
            else p.1 ++ List.replicate (nextPow2 p.1.length - p.1.length) (0 : F)
    with hqf
  have hqfat : ∀ k, coeffAt qf k = coeffAt p.1 k := by
    intro k
    rw [hqf]
    rcases h : isPow2 p.1.length with _ | _ <;> simp only [h, if_true, if_false,
      Bool.false_eq_true]
    · exact coeffAt_append_replicate p.1 _ k
  refine ⟨qf, stripTrailZeros p.2, ?_, ?_, ?_, ?_⟩
  · show long_division dividend divisor = _
    unfold long_division
    rw [← hv, if_neg (by omega), if_neg (by omega)]
  · intro i
    rw [hinv i]
    congr 1
    · rw [convAt_congr _ _ divisor _ (fun k => coeffAt_stripTrailZeros divisor k),
        convAt_congr_left _ p.1 _ _ hqfat]
    · rw [coeffAt_stripTrailZeros]
  · exact lt_of_le_of_lt (stripTrailZeros_length_le p.2) hlt
  · exact stripTrailZeros_getLast_ne p.2

theorem divLoop_stop (v : List F) (dlen fuel : ℕ) (q rem : List F)
    (h : rem.length < dlen) : divLoop v dlen fuel q rem = (q, rem) := by
  cases fuel with
  | zero => rfl
  | succ n => simp [divLoop, h]

/-! ### Evaluation lemmas (Horner = monomial sum) -/

theorem evalPoly_nil (x : F) : evalPoly ([] : List F) x = 0 := by
  simp [evalPoly]

theorem evalPoly_cons (a : F) (t : List F) (x : F) :
    evalPoly (a :: t) x = a + x * evalPoly t x := by
  unfold evalPoly
  rw [List.length_cons, Finset.sum_range_succ']
  simp only [coeffAt_cons_succ]
  have h0 : coeffAt (a :: t) 0 * x ^ 0 = a := by simp [coeffAt]
  rw [h0, Finset.mul_sum]
  rw [add_comm]
  congr 1
  exact Finset.sum_congr rfl (fun i _ => by ring)

theorem eval_single_cons (a : F) (t : List F) (x : F) (h : t ≠ []) :
    eval_single (a :: t) x = eval_single t x * x + a := by
  unfold eval_single
  obtain ⟨u, c, rfl⟩ : ∃ u c, t = u ++ [c] := by
    rcases List.eq_nil_or_concat t with hc | ⟨u, c, hc⟩
    · exact absurd hc h
    · exact ⟨u, c, by simpa using hc⟩
  rw [List.getLast?_concat]
  have h1 : (a :: (u ++ [c])).getLast? = some c := by
    rw [show a :: (u ++ [c]) = (a :: u) ++ [c] by simp, List.getLast?_concat]
  rw [h1]
  have h2 : (a :: (u ++ [c])).dropLast = a :: u := by
    rw [show a :: (u ++ [c]) = (a :: u) ++ [c] by simp, List.dropLast_concat]
  rw [h2, List.dropLast_concat]
  simp [List.foldl_append]

/-- Horner evaluation agrees with the monomial sum. -/
theorem eval_single_eq_evalPoly (l : List F) (x : F) :
    eval_single l x = evalPoly l x := by
  induction l with
  | nil => simp [eval_single, evalPoly]
  | cons a t ih =>
    cases t with
    | nil => simp [eval_single, evalPoly, coeffAt]
    | cons b u =>
      rw [eval_single_cons a _ x (by simp), ih, evalPoly_cons a (b :: u) x]
      ring

theorem evalPoly_eq_sum_of_le (l : List F) (x : F) (N : ℕ) (h : l.length ≤ N) :
    evalPoly l x = ∑ i in Finset.range N, coeffAt l i * x ^ i := by
  unfold evalPoly
  refine Finset.sum_subset (Finset.range_subset.mpr h) ?_
  intro i _ hi
  rw [coeffAt_of_le l i (by simpa using not_lt.mp (fun hc => hi (Finset.mem_range.mpr hc)))]
  ring

/-- Convolution against a monic linear divisor `[c, 1]`. -/
theorem convAt_linear (a : List F) (c : F) (i : ℕ) :
    convAt a [c, 1] i =
      coeffAt a i * c + (if 1 ≤ i then coeffAt a (i - 1) else 0) := by
  match i with
  | 0 =>
    unfold convAt
    rw [Finset.sum_range_succ, Finset.sum_range_zero]
    simp only [Nat.sub_zero, Nat.not_succ_le_zero, if_neg, Nat.lt_irrefl]
    rw [show coeffAt [c, (1 : F)] 0 = c from rfl]
    norm_num
  | 1 =>
    unfold convAt
    rw [Finset.sum_range_succ, Finset.sum_range_succ, Finset.sum_range_zero]
    rw [show (1 : ℕ) - 0 = 1 from rfl, show (1 : ℕ) - 1 = 0 from rfl]
    rw [show coeffAt [c, (1 : F)] 1 = 1 from rfl, show coeffAt [c, (1 : F)] 0 = c from rfl]
    simp only [le_refl, if_pos]
    ring
  | (m + 2) =>
    unfold convAt
    rw [Finset.sum_range_succ, Finset.sum_range_succ]
    have hz : ∀ j ∈ Finset.range (m + 1),
        coeffAt a j * coeffAt [c, (1 : F)] (m + 2 - j) = 0 := by
      intro j hj
      have hjm := Finset.mem_range.mp hj
      have : ([c, (1 : F)] : List F).length ≤ m + 2 - j := by
        simp only [List.length_cons, List.length_nil]
        omega
      rw [coeffAt_of_le _ _ this]
      ring
    rw [Finset.sum_eq_zero hz]
    have h1 : m + 2 - (m + 1) = 1 := by omega
    have h2 : m + 2 - (m + 2) = 0 := by omega
    rw [h1, h2]
    rw [show coeffAt [c, (1 : F)] 1 = 1 from rfl, show coeffAt [c, (1 : F)] 0 = c from rfl]
    simp only [Nat.le_add_left 1 (m + 1), if_pos]
    have h3 : m + 2 - 1 = m + 1 := by omega
    rw [h3]
    ring

/-- Summing the linear convolution is multiplication by `(x + c)`. -/
theorem sum_convAt_linear (a : List F) (c x : F) (N : ℕ) (h : a.length + 1 ≤ N) :
    ∑ i in Finset.range N, convAt a [c, 1] i * x ^ i = (x + c) * evalPoly a x := by
  have hsplit : ∀ i, convAt a [c, 1] i * x ^ i =
      c * (coeffAt a i * x ^ i) + (if 1 ≤ i then coeffAt a (i - 1) else 0) * x ^ i := by
    intro i
    rw [convAt_linear]
    ring
  rw [Finset.sum_congr rfl (fun i _ => hsplit i), Finset.sum_add_distrib]
  have h1 : ∑ i in Finset.range N, c * (coeffAt a i * x ^ i) = c * evalPoly a x := by
    rw [← Finset.mul_sum, evalPoly_eq_sum_of_le a x N (by omega)]
  have h2 : ∑ i in Finset.range N, (if 1 ≤ i then coeffAt a (i - 1) else 0) * x ^ i
      = x * evalPoly a x := by
    cases N with
    | zero => omega
    | succ M =>
      rw [Finset.sum_range_succ']
      simp only [Nat.le_add_left 1, if_pos, Nat.add_sub_cancel, Nat.not_succ_le_zero,
        if_neg, Nat.lt_irrefl]
      have : (if 1 ≤ 0 then coeffAt a (0 - 1) else 0) * x ^ 0 = 0 := by norm_num
      rw [this, add_zero, evalPoly_eq_sum_of_le a x M (by omega), Finset.mul_sum]
      exact Finset.sum_congr rfl (fun i _ => by ring)
  rw [h1, h2]
  ring

/-! ### Claim C4: long division identity -/

/-- C4: for every dividend with at least as many coefficients as the divisor
and every divisor with at least one non-zero coefficient,
`long_division dividend divisor` returns `(q, rem)` with
`dividend = q * divisor + rem` (coefficient-wise: every coefficient of the
dividend equals the corresponding coefficient of the convolution `q * divisor`
plus that of `rem`) and `deg rem < deg divisor` (their trailing-zero-stripped
lengths compare). -/
theorem long_division_division_identity (dividend divisor : List F)
    (h1 : divisor.length ≤ dividend.length)
    (h2 : ∃ x ∈ divisor, x ≠ 0) :
    ∃ q rem, long_division dividend divisor = some (q, rem) ∧
      (∀ i, coeffAt dividend i = convAt q divisor i + coeffAt rem i) ∧
      (stripTrailZeros rem).length < (stripTrailZeros divisor).length := by
  obtain ⟨q, rem, he, hid, hlt, _⟩ := long_division_some dividend divisor h2
    (le_trans (le_trans (stripTrailZeros_length_le divisor) h1) (Nat.le_succ _))
  exact ⟨q, rem, he, hid, lt_of_le_of_lt (stripTrailZeros_length_le rem) hlt⟩

/-- Witness for C4 at a concrete input: `[1,2,3,4,4,3,2,1] / (X^4 - 1)`
over `ZMod 5`. -/
theorem long_division_division_identity_witness :
    (([4, 0, 0, 0, 1] : List (ZMod 5)).length ≤
      ([1, 2, 3, 4, 4, 3, 2, 1] : List (ZMod 5)).length) ∧
    (∃ x ∈ ([4, 0, 0, 0, 1] : List (ZMod 5)), x ≠ 0) ∧
    (∃ q rem, long_division ([1, 2, 3, 4, 4, 3, 2, 1] : List (ZMod 5))
        [4, 0, 0, 0, 1] = some (q, rem) ∧
      (∀ i, coeffAt ([1, 2, 3, 4, 4, 3, 2, 1] : List (ZMod 5)) i =
        convAt q [4, 0, 0, 0, 1] i + coeffAt rem i) ∧
      (stripTrailZeros rem).length <
        (stripTrailZeros ([4, 0, 0, 0, 1] : List (ZMod 5))).length) :=
  ⟨by decide, by decide,
    long_division_division_identity _ _ (by decide) (by decide)⟩

/-! ### Claim C7: dividend shorter than the divisor -/

/-- C7 counterexample: the claim says a dividend shorter than the (stripped)
divisor yields a quotient of length 0.  On `[1] / (x + 1)` over `ZMod 5` the
code instead re-pads the empty quotient to the next power of two, returning
the length-1 quotient `[0]`. -/
theorem long_division_short_quotient_counterexample :
    long_division ([1] : List (ZMod 5)) [1, 1] = some ([0], [1]) ∧
    ([(0 : ZMod 5)] : List (ZMod 5)).length ≠ 0 := by
  constructor
  · decide
  · decide

/-- C7 amended: for a dividend exactly one shorter than the stripped divisor
the wrapped quotient-length computation produces an empty quotient that the
final padding step re-pads to the length-1 zero quotient `[0]` (never a
length-0 quotient); for dividends shorter by more than one the wrapped
allocation size `dividend.len() - divisor_len + 1` is astronomically large
and the call aborts. -/
theorem long_division_short_dividend (dividend divisor : List F)
    (h0 : stripTrailZeros divisor ≠ []) :
    (dividend.length + 1 = (stripTrailZeros divisor).length →
       long_division dividend divisor = some ([0], stripTrailZeros dividend)) ∧
    (dividend.length + 1 < (stripTrailZeros divisor).length →
       long_division dividend divisor = none) := by
  have hlenpos : 0 < (stripTrailZeros divisor).length := List.length_pos.mpr h0
  constructor
  · intro h
    unfold long_division
    rw [if_neg (by omega), if_neg (by omega)]
    have hrep : List.replicate (dividend.length + 1 -
        (stripTrailZeros divisor).length) (0 : F) = [] := by
      rw [h]
      simp
    simp only [hrep]
    rw [divLoop_stop _ _ _ _ _ (by omega)]
    have hp0 : isPow2 (List.length ([] : List F)) = false := by
      rw [List.length_nil]
      rfl
    simp only [hp0, Bool.false_eq_true, if_false]
    rfl
  · intro h
    unfold long_division
    rw [if_neg (by omega), if_pos (by omega)]

/-- Witness for the amended C7: both branches at concrete inputs. -/
theorem long_division_short_dividend_witness :
    (stripTrailZeros ([1, 1] : List (ZMod 5)) ≠ []) ∧
    (long_division ([2] : List (ZMod 5)) [1, 1] =
      some ([0], stripTrailZeros ([2] : List (ZMod 5)))) ∧
    (long_division ([] : List (ZMod 5)) [1, 1] = none) :=
  ⟨by decide,
    (long_division_short_dividend [2] [1, 1] (by decide)).1 (by decide),
    (long_division_short_dividend [] [1, 1] (by decide)).2 (by decide)⟩

/-! ### Claim C5: `shift_polynomial` inverts multiplication by `(x - r)` -/

/-- C5: for every polynomial `p` of power-of-two length at least 2 and every
field element `r`, `shift_polynomial p r * (x - r) + p(r) = p` as polynomials:
every coefficient of `p` equals the corresponding coefficient of the
convolution of the shift quotient with `x - r` (the vector `[0 - r, 1]`)
plus the constant `p(r)` in degree 0. -/
theorem shift_polynomial_spec (p : List F) (r : F) (k : ℕ)
    (hk : p.length = 2 ^ k) (h2 : 2 ≤ p.length) :
    ∃ w, shift_polynomial p r = some w ∧
      ∀ i, coeffAt p i =
        convAt w [0 - r, 1] i + (if i = 0 then eval_single p r else 0) := by
  have hpne : p ≠ [] := by
    intro hc; rw [hc] at h2; simp at h2
  set e := eval_single p r with hedef
  set num := p.set 0 (coeffAt p 0 - e) with hnumdef
  have hnumlen : num.length = p.length := by simp [hnumdef]
  have hstrip : stripTrailZeros [0 - r, (1 : F)] = [0 - r, 1] := by
    have h1 : stripTrailZeros [(1 : F)] = [1] := by
      simp [stripTrailZeros, one_ne_zero]
    simp [stripTrailZeros, h1]
  obtain ⟨q, rem, he, hid, hlt, hlast⟩ :=
    long_division_some num [0 - r, 1] ⟨1, by simp, one_ne_zero⟩
      (by rw [hstrip]; simp only [List.length_cons, List.length_nil]; omega)
  rw [hstrip] at hlt
  simp only [List.length_cons, List.length_nil] at hlt
  have hnum : ∀ i, coeffAt num i = if i = 0 then coeffAt p 0 - e else coeffAt p i := by
    intro i
    by_cases hi : i = 0
    · subst hi
      rw [if_pos rfl, hnumdef, coeffAt_set_self _ _ _ (by omega)]
    · rw [if_neg hi, hnumdef, coeffAt_set_ne _ _ _ _ (fun hc => hi hc.symm)]
  -- evaluate the division identity at r
  set N := num.length + q.length + 2 with hN
  have hsum : evalPoly num r = (r + (0 - r)) * evalPoly q r + evalPoly rem r := by
    rw [evalPoly_eq_sum_of_le num r N (by omega)]
    have : ∀ i ∈ Finset.range N, coeffAt num i * r ^ i =
        convAt q [0 - r, 1] i * r ^ i + coeffAt rem i * r ^ i := by
      intro i _
      rw [hid i]
      ring
    rw [Finset.sum_congr rfl this, Finset.sum_add_distrib,
      sum_convAt_linear q (0 - r) r N (by omega),
      ← evalPoly_eq_sum_of_le rem r N (by omega)]
  have hnum_eval : evalPoly num r = evalPoly p r - e := by
    obtain ⟨M, hM⟩ : ∃ M, p.length = M + 1 := ⟨p.length - 1, by omega⟩
    unfold evalPoly
    rw [hnumlen, hM, Finset.sum_range_succ', Finset.sum_range_succ']
    have hz : ∀ i, coeffAt num (i + 1) * r ^ (i + 1) =
        coeffAt p (i + 1) * r ^ (i + 1) := by
      intro i
      rw [hnum (i + 1), if_neg (Nat.succ_ne_zero i)]
    rw [Finset.sum_congr rfl (fun i _ => hz i), hnum 0, if_pos rfl]
    ring
  have hrem_eval : evalPoly rem r = 0 := by
    have h0 : evalPoly num r = 0 := by
      rw [hnum_eval, hedef, eval_single_eq_evalPoly]
      ring
    have := hsum
    rw [h0] at this
    have hco : (r + (0 - r)) = 0 := by ring
    rw [hco, zero_mul, zero_add] at this
    exact this.symm
  have hrem0 : ∀ i, coeffAt rem i = 0 := by
    intro i
    match rem, hlt with
    | [], _ => exact coeffAt_nil i
    | [c], _ =>
      have hcne : c ≠ 0 := by
        have := hlast (by simp)
        simpa [coeffAt] using this
      have : evalPoly [c] r = c := by
        rw [evalPoly_cons, evalPoly_nil]
        ring
      rw [this] at hrem_eval
      exact absurd hrem_eval hcne
    | c :: d :: t, hbad => simp at hbad; omega
  refine ⟨q, ?_, ?_⟩
  · unfold shift_polynomial
    rw [if_neg (by simpa using hpne)]
    simp only [← hedef, ← hnumdef, he, Option.map_some]
    rfl
  · intro i
    by_cases hi : i = 0
    · subst hi
      have h0 := hid 0
      rw [hnum 0, if_pos rfl, hrem0 0] at h0
      rw [if_pos rfl]
      have hmain : coeffAt p 0 - e = convAt q [0 - r, 1] 0 := by
        rw [h0]; ring
      rw [← hmain]
      ring
    · have hii := hid i
      rw [hnum i, if_neg hi, hrem0 i] at hii
      rw [if_neg hi, hii]

/-- Witness for C5 at `p = [1,2,3,4]`, `r = 2` over `ZMod 5`. -/
theorem shift_polynomial_spec_witness :
    (([1, 2, 3, 4] : List (ZMod 5)).length = 2 ^ 2) ∧
    (2 ≤ ([1, 2, 3, 4] : List (ZMod 5)).length) ∧
    (∃ w, shift_polynomial ([1, 2, 3, 4] : List (ZMod 5)) 2 = some w ∧
      ∀ i, coeffAt ([1, 2, 3, 4] : List (ZMod 5)) i =
        convAt w [0 - 2, 1] i +
          (if i = 0 then eval_single ([1, 2, 3, 4] : List (ZMod 5)) 2 else 0)) :=
  ⟨by decide, by decide, shift_polynomial_spec [1, 2, 3, 4] 2 2 (by decide) (by decide)⟩

/-! ### Arithmetic of `floorLog2`, `isPow2` and `nextPow2` -/

theorem log2fuel_bounds : ∀ (f n : ℕ), 1 ≤ n → n ≤ f →
    2 ^ (log2fuel f n) ≤ n ∧ n < 2 ^ (log2fuel f n + 1) := by
  intro f
  induction f with
  | zero => intro n h1 h2; omega
  | succ f ih =>
    intro n h1 h2
    by_cases hn : n ≤ 1
    · have : n = 1 := by omega
      subst this
      simp [log2fuel]
    · have h2n : 2 ≤ n := by omega
      have hrec : log2fuel (f + 1) n = log2fuel f (n / 2) + 1 := by
        simp [log2fuel, hn]
      obtain ⟨ha, hb⟩ := ih (n / 2) (by omega) (by omega)
      rw [hrec]
      constructor
      · calc 2 ^ (log2fuel f (n / 2) + 1) = 2 * 2 ^ (log2fuel f (n / 2)) := by ring
        _ ≤ 2 * (n / 2) := by omega
        _ ≤ n := by omega
      · calc n < 2 * (n / 2) + 2 := by omega
        _ ≤ 2 * 2 ^ (log2fuel f (n / 2) + 1) := by omega
        _ = 2 ^ (log2fuel f (n / 2) + 1 + 1) := by ring

theorem floorLog2_bounds (n : ℕ) (h : 1 ≤ n) :
    2 ^ (floorLog2 n) ≤ n ∧ n < 2 ^ (floorLog2 n + 1) :=
  log2fuel_bounds n n h le_rfl

theorem floorLog2_unique (n a : ℕ) (h1 : 2 ^ a ≤ n) (h2 : n < 2 ^ (a + 1)) :
    floorLog2 n = a := by
  have hn : 1 ≤ n := le_trans (Nat.one_le_two_pow) h1
  obtain ⟨ha, hb⟩ := floorLog2_bounds n hn
  by_contra hne
  rcases lt_or_gt_of_ne hne with hlt | hgt
  · have : floorLog2 n + 1 ≤ a := by omega
    have := le_trans (Nat.pow_le_pow_right (by norm_num) this) h1
    omega
  · have : a + 1 ≤ floorLog2 n := by omega
    have := le_trans (Nat.pow_le_pow_right (by norm_num) this) ha
    omega

theorem floorLog2_pow (k : ℕ) : floorLog2 (2 ^ k) = k :=
  floorLog2_unique (2 ^ k) k le_rfl (Nat.pow_lt_pow_right (by norm_num) (by omega))

theorem isPow2_iff (n : ℕ) : isPow2 n = true ↔ ∃ k, n = 2 ^ k := by
  constructor
  · intro h
    exact ⟨floorLog2 n, Nat.eq_of_beq_eq_true (by simpa [isPow2] using h)⟩
  · rintro ⟨k, rfl⟩
    simp [isPow2, floorLog2_pow]

theorem nextPow2_of_pow2 (n : ℕ) (h : isPow2 n = true) : nextPow2 n = n := by
  obtain ⟨k, rfl⟩ := (isPow2_iff n).mp h
  unfold nextPow2
  rcases Nat.eq_zero_or_pos k with rfl | hk
  · norm_num
  · have hk2 : 2 ≤ 2 ^ k := by
      calc (2 : ℕ) = 2 ^ 1 := rfl
      _ ≤ 2 ^ k := Nat.pow_le_pow_right (by norm_num) hk
    rw [if_neg (by omega)]
    have hsplit : 2 ^ (k - 1) + 2 ^ (k - 1) = 2 ^ k := by
      rw [← two_mul, ← pow_succ']
      congr 1
      omega
    have hpos : 0 < 2 ^ (k - 1) := Nat.two_pow_pos _
    have h1 : 2 ^ (k - 1) ≤ 2 ^ k - 1 := by omega
    have h2 : 2 ^ k - 1 < 2 ^ (k - 1 + 1) := by
      have hksub : k - 1 + 1 = k := by omega
      rw [hksub]
      omega
    rw [floorLog2_unique _ _ h1 h2]
    have hksub2 : k - 1 + 1 = k := by omega
    rw [hksub2]

theorem nextPow2_of_not_pow2 (n : ℕ) (h : isPow2 n = false) (hn : 1 ≤ n) :
    nextPow2 n = 2 ^ (floorLog2 n + 1) := by
  have hne : n ≠ 2 ^ floorLog2 n := by
    intro hc
    rw [isPow2] at h
    rw [← hc] at h
    simp at h
  obtain ⟨ha, hb⟩ := floorLog2_bounds n hn
  have hn2 : 2 ≤ n := by
    rcases Nat.lt_or_ge n 2 with h1 | h1
    · interval_cases n
      exact absurd (by rw [floorLog2_unique 1 0 (by norm_num) (by norm_num)]; rfl) hne
    · exact h1
  unfold nextPow2
  rw [if_neg (by omega)]
  congr 2
  exact floorLog2_unique (n - 1) (floorLog2 n) (by omega) (by omega)

/-! ### Claim C10: `pop_zeros` termination behaviour -/

theorem shiftStep_zero_fixed : ∀ n : ℕ, (shiftStep^[n] (0, 0)).2 = 0 := by
  intro n
  induction n with
  | zero => rfl
  | succ m ih =>
    rw [Function.iterate_succ_apply']
    simp only [shiftStep]
    rw [if_neg (by omega)]
    have ih2 : (shiftStep^[m] ((0 : ℕ), (0 : ℕ))).2 = 0 := ih
    omega

theorem shiftStep_reaches_one : ∀ (m : ℕ), 1 ≤ m → ∀ (x : ℕ),
    shiftStep^[floorLog2 m] (x, m) = (x + floorLog2 m, 1) := by
  intro m
  induction m using Nat.strong_induction_on with
  | _ m ih =>
    intro hm x
    rcases Nat.lt_or_ge m 2 with h2 | h2
    · have : m = 1 := by omega
      subst this
      have : floorLog2 1 = 0 := floorLog2_unique 1 0 (by norm_num) (by norm_num)
      rw [this]
      rfl
    · have hhalf : 1 ≤ m / 2 := by omega
      have hlog : floorLog2 m = floorLog2 (m / 2) + 1 := by
        obtain ⟨ha, hb⟩ := floorLog2_bounds (m / 2) hhalf
        refine floorLog2_unique m (floorLog2 (m / 2) + 1) ?_ ?_
        · calc 2 ^ (floorLog2 (m / 2) + 1) = 2 * 2 ^ (floorLog2 (m / 2)) := by ring
          _ ≤ 2 * (m / 2) := by omega
          _ ≤ m := by omega
        · calc m < 2 * (m / 2) + 2 := by omega
          _ ≤ 2 * 2 ^ (floorLog2 (m / 2) + 1) := by omega
          _ = 2 ^ (floorLog2 (m / 2) + 1 + 1) := by ring
      rw [hlog, Function.iterate_succ_apply]
      have hstep : shiftStep (x, m) = (x + 1, m / 2) := by
        unfold shiftStep
        rw [if_neg (by omega)]
      rw [hstep, ih (m / 2) (by omega) hhalf (x + 1)]
      congr 1
      omega

/-- C10: `pop_zeros` terminates on every polynomial with a non-zero
coefficient, leaving length `next_power_of_two (degree + 1)` (where the degree
`d` is the largest index holding a non-zero coefficient), and the log
while-loop it runs reaches its exit condition; on an all-zero polynomial the
stripping empties the vector and the log loop, started at `y = 0`, never
reaches its exit condition `y = 1`, so `pop_zeros` never terminates. -/
theorem pop_zeros_termination (l : List F) (d : ℕ)
    (hd : coeffAt l d ≠ 0)
    (hmax : ∀ j < l.length, d < j → coeffAt l j = 0) :
    ((∃ l2, pop_zeros l = some l2 ∧ l2.length = nextPow2 (d + 1)) ∧
      (∃ n, (shiftStep^[n] (0, (stripTrailZeros l).length)).2 = 1)) ∧
    (∀ (m : List F), (∀ x ∈ m, x = 0) →
      pop_zeros m = none ∧
      (∀ n, (shiftStep^[n] (0, (stripTrailZeros m).length)).2 ≠ 1)) := by
  constructor
  · -- the terminating branch
    set s := stripTrailZeros l with hs
    have hsne : s ≠ [] := stripTrailZeros_ne_nil l ⟨d, hd⟩
    have hspos : 1 ≤ s.length := List.length_pos.mpr hsne
    have hlen : s.length = d + 1 := by
      have hlast : coeffAt l (s.length - 1) ≠ 0 := by
        have := stripTrailZeros_getLast_ne l hsne
        rwa [coeffAt_stripTrailZeros] at this
      have hup : d < s.length := by
        by_contra hc
        exact hd (coeffAt_beyond_strip l d (by rw [← hs]; omega))
      have hdown : s.length - 1 ≤ d := by
        by_contra hc
        push_neg at hc
        have hsl : s.length ≤ l.length := by
          rw [hs]
          exact stripTrailZeros_length_le l
        have hlt : s.length - 1 < l.length := by omega
        exact hlast (hmax (s.length - 1) hlt (by omega))
      omega
    constructor
    · rcases hp : isPow2 s.length with _ | _
      · -- not a power of two: re-pad
        have hlt : s.length < 2 ^ (floorLog2 s.length + 1) :=
          (floorLog2_bounds s.length hspos).2
        refine ⟨s ++ List.replicate (2 ^ (floorLog2 s.length + 1) - s.length) 0, ?_, ?_⟩
        · unfold pop_zeros
          rw [← hs]
          simp only [hp, Bool.false_eq_true, if_false]
          rw [if_neg (by omega), if_pos hlt]
        · rw [List.length_append, List.length_replicate, ← hlen,
            nextPow2_of_not_pow2 s.length hp hspos]
          omega
      · refine ⟨s, ?_, ?_⟩
        · unfold pop_zeros
          rw [← hs]
          simp only [hp, if_true]
        · rw [hlen] at hp ⊢
          exact (nextPow2_of_pow2 (d + 1) hp).symm
    · exact ⟨floorLog2 s.length, by rw [shiftStep_reaches_one s.length hspos 0]⟩
  · -- the all-zero branch
    intro m hm
    have hnil : stripTrailZeros m = [] := by
      rw [stripTrailZeros_eq_nil_iff]
      intro i
      rcases lt_or_le i m.length with h | h
      · rw [coeffAt_of_lt _ _ h]
        exact hm _ (List.get_mem m i h)
      · exact coeffAt_of_le _ _ h
    constructor
    · unfold pop_zeros
      rw [hnil]
      simp [show isPow2 0 = false from rfl]
    · intro n
      rw [hnil]
      simp only [List.length_nil]
      rw [shiftStep_zero_fixed n]
      omega

/-- Witness for C10 at `l = [0, 2, 0]`, degree 1, over `ZMod 5`. -/
theorem pop_zeros_termination_witness :
    (coeffAt ([0, 2, 0] : List (ZMod 5)) 1 ≠ 0) ∧
    (∀ j < ([0, 2, 0] : List (ZMod 5)).length, 1 < j →
      coeffAt ([0, 2, 0] : List (ZMod 5)) j = 0) ∧
    ((∃ l2, pop_zeros ([0, 2, 0] : List (ZMod 5)) = some l2 ∧
        l2.length = nextPow2 (1 + 1)) ∧
      (∃ n, (shiftStep^[n]
        (0, (stripTrailZeros ([0, 2, 0] : List (ZMod 5))).length)).2 = 1)) ∧
    (∀ (m : List (ZMod 5)), (∀ x ∈ m, x = 0) →
      pop_zeros m = none ∧
      (∀ n, (shiftStep^[n] (0, (stripTrailZeros m).length)).2 ≠ 1)) :=
  ⟨by decide, by decide,
    (pop_zeros_termination [0, 2, 0] 1 (by decide) (by decide)).1,
    (pop_zeros_termination [0, 2, 0] 1 (by decide) (by decide)).2⟩

/-! ### Claim C3: `root_with_order` versus domain construction -/

/-- C3 is a code bug: `root_with_order_unchecked` squares `ROOT_OF_UNITY`
only `(S - 1) - log₂(size)` times (loop `log_n..(max_power_of_two - 1)`),
while `new_for_size` — and the claim — square `S - log₂(size)` times.  At
`S = 4` with `ROOT_OF_UNITY = 3` of order `16` in `ZMod 17` (the exact
analogue of the Goldilocks layout) and `order = 4`, the code returns
`9 = 3²`, an element of order 8: `9⁴ = -1 ≠ 1`, violating the claimed
invariant `generator^size = 1`, whereas `new_for_size` returns `13 = 3⁴`
with `13⁴ = 1` and `13² ≠ 1`. -/
theorem root_with_order_unchecked_bug :
    root_with_order_unchecked 4 (3 : ZMod 17) 4 = 9 ∧
    (9 : ZMod 17) ^ (4 : ℕ) ≠ 1 ∧
    (∃ d : DomainE (ZMod 17), new_for_size 4 (3 : ZMod 17) 4 = some d ∧
      d.generator = 13 ∧ d.size = 4 ∧
      (13 : ZMod 17) ^ (4 : ℕ) = 1 ∧ (13 : ZMod 17) ^ (2 : ℕ) ≠ 1) ∧
    root_with_order_unchecked 4 (3 : ZMod 17) 4 ≠ 13 := by
  refine ⟨by decide, by decide, ⟨⟨4, 2, 13⟩, by decide, rfl, rfl, by decide, by decide⟩,
    by decide⟩

/-! ### Bit-reversal arithmetic -/

theorem brAux_shift : ∀ (l r n : ℕ), brAux l r n = r * 2 ^ l + brAux l 0 n := by
  intro l
  induction l with
  | zero => intro r n; simp [brAux]
  | succ l ih =>
    intro r n
    have h1 : brAux (l + 1) r n = brAux l (2 * r + n % 2) (n / 2) := rfl
    have h2 : brAux (l + 1) 0 n = brAux l (2 * 0 + n % 2) (n / 2) := rfl
    rw [h1, h2, ih (2 * r + n % 2) (n / 2), ih (2 * 0 + n % 2) (n / 2)]
    ring

theorem bitreverse_succ (n l : ℕ) :
    bitreverse n (l + 1) = n % 2 * 2 ^ l + bitreverse (n / 2) l := by
  have h2 : bitreverse n (l + 1) = brAux l (2 * 0 + n % 2) (n / 2) := rfl
  rw [h2, brAux_shift l (2 * 0 + n % 2) (n / 2)]
  have h3 : 2 * 0 + n % 2 = n % 2 := by omega
  rw [h3]
  rfl

theorem bitreverse_lt (n l : ℕ) : bitreverse n l < 2 ^ l := by
  induction l generalizing n with
  | zero => simp [bitreverse, brAux]
  | succ l ih =>
    rw [bitreverse_succ]
    have h1 : n % 2 ≤ 1 := by omega
    have h2 := ih (n / 2)
    have h3 : n % 2 * 2 ^ l ≤ 2 ^ l := by
      calc n % 2 * 2 ^ l ≤ 1 * 2 ^ l := by
            exact Nat.mul_le_mul_right _ h1
      _ = 2 ^ l := by ring
    calc n % 2 * 2 ^ l + bitreverse (n / 2) l < 2 ^ l + 2 ^ l := by omega
    _ = 2 ^ (l + 1) := by ring

theorem bitreverse_even (j l : ℕ) : bitreverse (2 * j) (l + 1) = bitreverse j l := by
  rw [bitreverse_succ]
  have h1 : 2 * j % 2 = 0 := by omega
  have h2 : 2 * j / 2 = j := by omega
  rw [h1, h2]
  ring_nf

theorem bitreverse_odd (j l : ℕ) :
    bitreverse (2 * j + 1) (l + 1) = 2 ^ l + bitreverse j l := by
  rw [bitreverse_succ]
  have h1 : (2 * j + 1) % 2 = 1 := by omega
  have h2 : (2 * j + 1) / 2 = j := by omega
  rw [h1, h2]
  ring_nf

theorem bitreverse_first_half : ∀ (l i : ℕ), i < 2 ^ l →
    bitreverse i (l + 1) = 2 * bitreverse i l := by
  intro l
  induction l with
  | zero =>
    intro i hi
    interval_cases i
    rfl
  | succ l ih =>
    intro i hi
    rw [bitreverse_succ i (l + 1), bitreverse_succ i l,
      ih (i / 2) (by omega)]
    ring

theorem bitreverse_second_half : ∀ (l i : ℕ), i < 2 ^ l →
    bitreverse (i + 2 ^ l) (l + 1) = 2 * bitreverse i l + 1 := by
  intro l
  induction l with
  | zero =>
    intro i hi
    interval_cases i
    rfl
  | succ l ih =>
    intro i hi
    have h1 : (i + 2 ^ (l + 1)) % 2 = i % 2 := by
      have : 2 ^ (l + 1) % 2 = 0 := by
        have : (2 : ℕ) ∣ 2 ^ (l + 1) := dvd_pow_self 2 (by omega)
        omega
      omega
    have h2 : (i + 2 ^ (l + 1)) / 2 = i / 2 + 2 ^ l := by
      have hp : 2 ^ (l + 1) = 2 * 2 ^ l := by ring
      omega
    rw [bitreverse_succ (i + 2 ^ (l + 1)) (l + 1), h1, h2,
      ih (i / 2) (by omega), bitreverse_succ i l]
    ring

theorem bitreverse_involution : ∀ (l i : ℕ), i < 2 ^ l →
    bitreverse (bitreverse i l) l = i := by
  intro l
  induction l with
  | zero =>
    intro i hi
    interval_cases i
    rfl
  | succ l ih =>
    intro i hi
    rcases Nat.even_or_odd i with ⟨j, hj⟩ | ⟨j, hj⟩
    · have hj2 : i = 2 * j := by omega
      subst hj2
      have hjlt : j < 2 ^ l := by omega
      rw [bitreverse_even j l, bitreverse_first_half l (bitreverse j l)
        (bitreverse_lt j l), ih j hjlt]
    · subst hj
      have hjlt : j < 2 ^ l := by
        have := Nat.pow_succ 2 l
        omega
      rw [bitreverse_odd j l]
      rw [add_comm (2 ^ l) (bitreverse j l), bitreverse_second_half l
        (bitreverse j l) (bitreverse_lt j l), ih j hjlt]

/-! ### The bit-reversal permutation -/

theorem listSwap_length (l : List F) (i j : ℕ) : (listSwap l i j).length = l.length := by
  simp [listSwap]

theorem coeffAt_listSwap (l : List F) (i j k : ℕ) (hi : i < l.length) (hj : j < l.length) :
    coeffAt (listSwap l i j) k =
      if k = i then coeffAt l j else if k = j then coeffAt l i else coeffAt l k := by
  have hgd : l.getD j 0 = coeffAt l j := rfl
  have hgd2 : l.getD i 0 = coeffAt l i := rfl
  by_cases hkj : k = j
  · subst hkj
    rw [show listSwap l i k = (l.set i (l.getD k 0)).set k (l.getD i 0) from rfl,
      coeffAt_set_self _ _ _ (by simpa using hj)]
    by_cases hki : k = i
    · subst hki
      rw [if_pos rfl, hgd2]
    · rw [if_neg hki, if_pos rfl, hgd2]
  · rw [show listSwap l i j = (l.set i (l.getD j 0)).set j (l.getD i 0) from rfl,
      coeffAt_set_ne _ _ _ _ (fun h => hkj h.symm)]
    by_cases hki : k = i
    · subst hki
      rw [if_pos rfl, coeffAt_set_self _ _ _ hi, hgd]
    · rw [if_neg hki, if_neg hkj, coeffAt_set_ne _ _ _ _ (fun h => hki h.symm)]

theorem bitrevPerm_spec (a : List F) (l : ℕ) (ha : a.length = 2 ^ l) :
    (bitrevPerm a l).length = a.length ∧
    ∀ i, i < a.length → coeffAt (bitrevPerm a l) i = coeffAt a (bitreverse i l) := by
  have main : ∀ k₀, k₀ ≤ a.length →
      ((List.range k₀).foldl (brStep l) a).length = a.length ∧
      ∀ i, i < a.length →
        coeffAt ((List.range k₀).foldl (brStep l) a) i =
        if min i (bitreverse i l) < k₀ then coeffAt a (bitreverse i l)
        else coeffAt a i := by
    intro k₀
    induction k₀ with
    | zero =>
      intro _
      refine ⟨rfl, fun i hi => ?_⟩
      rw [if_neg (by omega)]
      rfl
    | succ k ihk =>
      intro hk1
      obtain ⟨ihlen, ihval⟩ := ihk (by omega)
      rw [List.range_succ, List.foldl_append, List.foldl_cons, List.foldl_nil]
      set b := (List.range k).foldl (brStep l) a with hbdef
      set rk := bitreverse k l with hrkdef
      have hrklt : rk < a.length := by rw [ha, hrkdef]; exact bitreverse_lt k l
      have hklt : k < a.length := by omega
      have hinvk : bitreverse rk l = k := by
        rw [hrkdef]
        exact bitreverse_involution l k (by rw [← ha]; exact hklt)
      have hstep : brStep l b k = if k < rk then listSwap b k rk else b := rfl
      rw [hstep]
      by_cases hlt : k < rk
      · rw [if_pos hlt]
        refine ⟨by rw [listSwap_length, ihlen], fun i hi => ?_⟩
        rw [coeffAt_listSwap b k rk i (by omega) (by omega)]
        by_cases hik : i = k
        · rw [if_pos hik, ihval rk hrklt, hinvk, if_neg (by omega), hik,
            ← hrkdef, if_pos (by omega)]
        · rw [if_neg hik]
          by_cases hirk : i = rk
          · rw [if_pos hirk, ihval k hklt, ← hrkdef, if_neg (by omega), hirk]
            have hbr : bitreverse rk l = k := hinvk
            rw [hbr, if_pos (by omega)]
          · rw [if_neg hirk, ihval i hi]
            have hne : min i (bitreverse i l) ≠ k := by
              intro hc
              have hcases : (i = k ∧ i ≤ bitreverse i l) ∨
                  (bitreverse i l = k ∧ bitreverse i l ≤ i) := by omega
              rcases hcases with ⟨h1, _⟩ | ⟨h1, _⟩
              · exact hik h1
              · refine hirk ?_
                rw [hrkdef, ← h1,
                  bitreverse_involution l i (by rw [← ha]; exact hi)]
            by_cases hcond : min i (bitreverse i l) < k
            · rw [if_pos hcond, if_pos (by omega)]
            · rw [if_neg hcond, if_neg (by omega)]
      · rw [if_neg hlt]
        refine ⟨ihlen, fun i hi => ?_⟩
        rw [ihval i hi]
        set ri := bitreverse i l with hridef
        have hinvi : bitreverse ri l = i := by
          rw [hridef]
          exact bitreverse_involution l i (by rw [← ha]; exact hi)
        by_cases hm : min i ri = k
        · -- the index pair met here is degenerate: i coincides with its reverse
          have hie : i = ri := by
            have hcases : (i = k ∧ i ≤ ri) ∨ (ri = k ∧ ri ≤ i) := by omega
            rcases hcases with ⟨h1, h2⟩ | ⟨h1, h2⟩
            · have hrr : ri = rk := by rw [hridef, hrkdef, h1]
              omega
            · have hir : i = rk := by rw [hrkdef, ← h1, hinvi]
              omega
          rw [← hie, ite_self, ite_self]
        · by_cases hc : min i ri < k
          · rw [if_pos hc, if_pos (by omega)]
          · rw [if_neg hc, if_neg (by omega)]
  obtain ⟨h1, h2⟩ := main a.length le_rfl
  exact ⟨h1, fun i hi => by rw [show bitrevPerm a l =
    (List.range a.length).foldl (brStep l) a from rfl, h2 i hi, if_pos (by omega)]⟩

/-! ### Even/odd deinterleaving -/

theorem evens_odds_length : ∀ l : List F,
    (evens l).length = (l.length + 1) / 2 ∧ (odds l).length = l.length / 2 := by
  intro l
  induction l with
  | nil => constructor <;> simp [evens, odds]
  | cons a t ih =>
    refine ⟨?_, ?_⟩
    · rw [show evens (a :: t) = a :: odds t from by simp [evens]]
      rw [List.length_cons, ih.2, List.length_cons]
      omega
    · rw [show odds (a :: t) = evens t from by simp [odds]]
      rw [ih.1, List.length_cons]

theorem coeffAt_evens_odds : ∀ (l : List F) (j : ℕ),
    coeffAt (evens l) j = coeffAt l (2 * j) ∧
    coeffAt (odds l) j = coeffAt l (2 * j + 1) := by
  intro l
  induction l with
  | nil => intro j; exact ⟨rfl, rfl⟩
  | cons a t ih =>
    intro j
    refine ⟨?_, ?_⟩
    · rw [show evens (a :: t) = a :: odds t from by simp [evens]]
      cases j with
      | zero => rfl
      | succ m =>
        have h1 : 2 * (m + 1) = (2 * m + 1) + 1 := by ring
        rw [h1, coeffAt_cons_succ, coeffAt_cons_succ, (ih m).2]
    · rw [show odds (a :: t) = evens t from by simp [odds]]
      rw [coeffAt_cons_succ, (ih j).1]

/-! ### The butterfly stages -/

theorem fftStage_length (a : List F) (wm : F) (m : ℕ) :
    (fftStage a wm m).length = a.length := by
  simp [fftStage]

theorem coeffAt_fftStage (a : List F) (wm : F) (m i : ℕ) (h : i < a.length) :
    coeffAt (fftStage a wm m) i =
      if i % (2 * m) < m then coeffAt a i + wm ^ (i % (2 * m)) * coeffAt a (i + m)
      else coeffAt a (i - m) - wm ^ (i % (2 * m) - m) * coeffAt a i := by
  rw [show fftStage a wm m = (List.range a.length).map (fun i =>
    if i % (2 * m) < m then a.getD i 0 + wm ^ (i % (2 * m)) * a.getD (i + m) 0
    else a.getD (i - m) 0 - wm ^ (i % (2 * m) - m) * a.getD i 0) from rfl,
    coeffAt_rangeMap _ _ _ h]
  rfl

/-- A butterfly stage whose blocks fit inside each half acts independently on
the two halves. -/
theorem fftStage_append (x y : List F) (wm : F) (m : ℕ) (hm : 0 < m)
    (hx : x.length = y.length) (hdvd : 2 * m ∣ x.length) :
    fftStage (x ++ y) wm m = fftStage x wm m ++ fftStage y wm m := by
  have hlen : (x ++ y).length = x.length + y.length := List.length_append x y
  have hstage : ∀ i, i < x.length + y.length →
      coeffAt (fftStage (x ++ y) wm m) i =
      coeffAt (fftStage x wm m ++ fftStage y wm m) i := by
    intro i hi
    have hxy : ∀ k, coeffAt (x ++ y) k =
        if k < x.length then coeffAt x k else coeffAt y (k - x.length) := by
      intro k
      by_cases hk : k < x.length
      · rw [if_pos hk]
        exact List.getD_append x y 0 k hk
      · rw [if_neg hk]
        exact List.getD_append_right x y 0 k (by omega)
    rw [coeffAt_fftStage _ _ _ _ (by omega)]
    by_cases hfirst : i < x.length
    · -- the block around i lies entirely inside x
      obtain ⟨c, hc⟩ := hdvd
      have hblock : i - i % (2 * m) + 2 * m ≤ x.length := by
        have h1 : i % (2 * m) < 2 * m := Nat.mod_lt i (by omega)
        have h2 : (2 * m) ∣ (i - i % (2 * m)) := by
          have := Nat.div_add_mod i (2 * m)
          exact ⟨i / (2 * m), by omega⟩
        obtain ⟨d, hd⟩ := h2
        have hdc : d < c := by
          by_contra hcon
          push_neg at hcon
          have : x.length ≤ i - i % (2 * m) := by
            rw [hc, hd]
            exact Nat.mul_le_mul_left _ hcon
          omega
        rw [hc, hd]
        calc 2 * m * d + 2 * m = 2 * m * (d + 1) := by ring
        _ ≤ 2 * m * c := Nat.mul_le_mul_left _ (by omega)
    -- bounds established; now both sides evaluate inside x
      have hgx : coeffAt (fftStage x wm m ++ fftStage y wm m) i
          = coeffAt (fftStage x wm m) i := by
        refine List.getD_append _ _ 0 i ?_
        rw [fftStage_length]
        exact hfirst
      rw [hgx, coeffAt_fftStage _ _ _ _ hfirst]
      have h1 : i % (2 * m) < 2 * m := Nat.mod_lt i (by omega)
      have h1b : i % (2 * m) ≤ i := Nat.mod_le i (2 * m)
      by_cases hpos : i % (2 * m) < m
      · rw [if_pos hpos, if_pos hpos, hxy i, if_pos hfirst, hxy (i + m),
          if_pos (by omega)]
      · rw [if_neg hpos, if_neg hpos, hxy i, if_pos hfirst, hxy (i - m),
          if_pos (by omega)]
    · -- the block around i lies entirely inside y
      push_neg at hfirst
      set j := i - x.length with hj
      have hjlt : j < y.length := by omega
      have hmod : ∀ t : ℕ, (t + x.length) % (2 * m) = t % (2 * m) := by
        intro t
        obtain ⟨c, hc⟩ := hdvd
        rw [hc, Nat.add_mul_mod_self_left]
      have hieq : i = j + x.length := by omega
      have hgy : coeffAt (fftStage x wm m ++ fftStage y wm m) i
          = coeffAt (fftStage y wm m) j := by
        show (fftStage x wm m ++ fftStage y wm m).getD i 0 = (fftStage y wm m).getD j 0
        rw [List.getD_append_right _ _ 0 i (by rw [fftStage_length]; omega),
          fftStage_length, ← hj]
      rw [hgy, coeffAt_fftStage _ _ _ _ hjlt, hieq, hmod j]
      have h1 : j % (2 * m) < 2 * m := Nat.mod_lt j (by omega)
      have hblock : j - j % (2 * m) + 2 * m ≤ y.length := by
        have h2 : (2 * m) ∣ (j - j % (2 * m)) := by
          have := Nat.div_add_mod j (2 * m)
          exact ⟨j / (2 * m), by omega⟩
        obtain ⟨c, hc⟩ := hdvd
        obtain ⟨d, hd⟩ := h2
        have hdc : d < c := by
          by_contra hcon
          push_neg at hcon
          have : y.length ≤ j - j % (2 * m) := by
            rw [← hx, hc, hd]
            exact Nat.mul_le_mul_left _ hcon
          omega
        rw [← hx, hc, hd]
        calc 2 * m * d + 2 * m = 2 * m * (d + 1) := by ring
        _ ≤ 2 * m * c := Nat.mul_le_mul_left _ (by omega)
      have h1b : j % (2 * m) ≤ j := Nat.mod_le j (2 * m)
      by_cases hpos : j % (2 * m) < m
      · rw [if_pos hpos, if_pos hpos, hxy (j + x.length),
          if_neg (by omega)]
        have he1 : j + x.length - x.length = j := by omega
        rw [he1, hxy (j + x.length + m), if_neg (by omega)]
        have he2 : j + x.length + m - x.length = j + m := by omega
        rw [he2]
      · rw [if_neg hpos, if_neg hpos, hxy (j + x.length - m),
          if_neg (by omega)]
        have he1 : j + x.length - m - x.length = j - m := by omega
        rw [he1, hxy (j + x.length), if_neg (by omega)]
        have he2 : j + x.length - x.length = j := by omega
        rw [he2]
  refine List.ext_getElem ?_ ?_
  · rw [fftStage_length, hlen, List.length_append, fftStage_length, fftStage_length]
  · intro i hi1 hi2
    have hi3 : i < x.length + y.length := by
      rw [fftStage_length, hlen] at hi1
      exact hi1
    have := hstage i hi3
    rw [coeffAt_of_lt _ _ hi1, coeffAt_of_lt _ _ hi2] at this
    simpa using this

/-- The last stage (block size equal to the whole buffer) is the classic
Cooley-Tukey combine step. -/
theorem fftStage_final (e o : List F) (w : F) (m : ℕ) (hm : 0 < m)
    (he : e.length = m) (ho : o.length = m) :
    fftStage (e ++ o) w m =
      ((List.range m).map (fun j => coeffAt e j + w ^ j * coeffAt o j)) ++
      ((List.range m).map (fun j => coeffAt e j - w ^ j * coeffAt o j)) := by
  have hlen : (e ++ o).length = 2 * m := by
    rw [List.length_append, he, ho]; ring
  refine List.ext_getElem ?_ ?_
  · rw [fftStage_length, hlen]
    simp only [List.length_append, List.length_map, List.length_range]
    omega
  · intro i hi1 hi2
    have hi3 : i < 2 * m := by
      rw [fftStage_length, hlen] at hi1
      exact hi1
    suffices hpoint : coeffAt (fftStage (e ++ o) w m) i =
        coeffAt (((List.range m).map (fun j => coeffAt e j + w ^ j * coeffAt o j)) ++
          ((List.range m).map (fun j => coeffAt e j - w ^ j * coeffAt o j))) i by
      rw [coeffAt_of_lt _ _ hi1, coeffAt_of_lt _ _ hi2] at hpoint
      simpa using hpoint
    rw [coeffAt_fftStage _ _ _ _ (by omega)]
    have hcombined : ∀ k, coeffAt (e ++ o) k =
        if k < m then coeffAt e k else coeffAt o (k - m) := by
      intro k
      by_cases hk : k < m
      · rw [if_pos hk]
        exact List.getD_append e o 0 k (by omega)
      · rw [if_neg hk]
        show (e ++ o).getD k 0 = o.getD (k - m) 0
        rw [List.getD_append_right e o 0 k (by omega), he]
    by_cases hsm : i < m
    · have hmod : i % (2 * m) = i := Nat.mod_eq_of_lt (by omega)
      rw [hmod, if_pos hsm, hcombined i, if_pos hsm, hcombined (i + m),
        if_neg (by omega)]
      have hsum : i + m - m = i := by omega
      rw [hsum]
      rw [show coeffAt (((List.range m).map fun j =>
          coeffAt e j + w ^ j * coeffAt o j) ++ ((List.range m).map fun j =>
          coeffAt e j - w ^ j * coeffAt o j)) i = coeffAt ((List.range m).map
          fun j => coeffAt e j + w ^ j * coeffAt o j) i from
        List.getD_append _ _ 0 i (by rw [List.length_map, List.length_range]; omega),
        coeffAt_rangeMap _ _ _ hsm]
    · have hmod : i % (2 * m) = i := Nat.mod_eq_of_lt (by omega)
      rw [hmod, if_neg hsm, hcombined (i - m), if_pos (by omega), hcombined i,
        if_neg (by omega)]
      have hlenA : (((List.range m).map fun j =>
          coeffAt e j + w ^ j * coeffAt o j)).length = m := by
        rw [List.length_map, List.length_range]
      have happ : coeffAt (((List.range m).map fun j =>
          coeffAt e j + w ^ j * coeffAt o j) ++ ((List.range m).map fun j =>
          coeffAt e j - w ^ j * coeffAt o j)) i = coeffAt ((List.range m).map
          fun j => coeffAt e j - w ^ j * coeffAt o j) (i - m) := by
        have hgdr := List.getD_append_right ((List.range m).map fun j =>
          coeffAt e j + w ^ j * coeffAt o j) ((List.range m).map fun j =>
          coeffAt e j - w ^ j * coeffAt o j) 0 i (by rw [hlenA]; omega)
        rw [hlenA] at hgdr
        exact hgdr
      rw [happ, coeffAt_rangeMap _ _ _ (by omega)]

theorem foldl_fftStage_length (L : List ℕ) (g : ℕ → F) (h : ℕ → ℕ) (a : List F) :
    (L.foldl (fun b s => fftStage b (g s) (h s)) a).length = a.length := by
  induction L generalizing a with
  | nil => rfl
  | cons s t ih =>
    rw [List.foldl_cons, ih (fftStage a (g s) (h s)), fftStage_length]

theorem fftStages_length (a : List F) (ω : F) (logn : ℕ) :
    (fftStages a ω logn).length = a.length :=
  foldl_fftStage_length (List.range logn) (fun s => ω ^ (2 ^ logn / (2 * 2 ^ s)))
    (fun s => 2 ^ s) a

/-- The first `k` stages of a size-`2^(k+1)` run act on the two halves as the
full runs of size `2^k` with squared root. -/
theorem fftStages_split (x y : List F) (ω : F) (k : ℕ)
    (hx : x.length = 2 ^ k) (hy : y.length = 2 ^ k) :
    fftStages (x ++ y) ω (k + 1) =
      fftStage (fftStages x (ω * ω) k ++ fftStages y (ω * ω) k) ω (2 ^ k) := by
  have main : ∀ j, j ≤ k →
      (List.range j).foldl
        (fun b s => fftStage b (ω ^ (2 ^ (k + 1) / (2 * 2 ^ s))) (2 ^ s)) (x ++ y) =
      ((List.range j).foldl
        (fun b s => fftStage b ((ω * ω) ^ (2 ^ k / (2 * 2 ^ s))) (2 ^ s)) x) ++
      ((List.range j).foldl
        (fun b s => fftStage b ((ω * ω) ^ (2 ^ k / (2 * 2 ^ s))) (2 ^ s)) y) := by
    intro j
    induction j with
    | zero => intro _; rfl
    | succ j ihj =>
      intro hj
      rw [List.range_succ, List.foldl_append, List.foldl_append,
        List.foldl_append, List.foldl_cons, List.foldl_cons, List.foldl_cons,
        List.foldl_nil, List.foldl_nil, List.foldl_nil, ihj (by omega)]
      set X := (List.range j).foldl
        (fun b s => fftStage b ((ω * ω) ^ (2 ^ k / (2 * 2 ^ s))) (2 ^ s)) x with hX
      set Y := (List.range j).foldl
        (fun b s => fftStage b ((ω * ω) ^ (2 ^ k / (2 * 2 ^ s))) (2 ^ s)) y with hY
      have hXlen : X.length = 2 ^ k := by
        rw [hX, foldl_fftStage_length (List.range j)
          (fun s => (ω * ω) ^ (2 ^ k / (2 * 2 ^ s))) (fun s => 2 ^ s) x, hx]
      have hYlen : Y.length = 2 ^ k := by
        rw [hY, foldl_fftStage_length (List.range j)
          (fun s => (ω * ω) ^ (2 ^ k / (2 * 2 ^ s))) (fun s => 2 ^ s) y, hy]
      have htwiddle : ω ^ (2 ^ (k + 1) / (2 * 2 ^ j)) =
          (ω * ω) ^ (2 ^ k / (2 * 2 ^ j)) := by
        have hjk : j < k := by omega
        have h1 : 2 ^ (k + 1) / (2 * 2 ^ j) = 2 ^ (k - j) := by
          rw [show 2 * 2 ^ j = 2 ^ (j + 1) from by ring,
            Nat.pow_div (by omega) (by norm_num),
            show k + 1 - (j + 1) = k - j from by omega]
        have h2 : 2 ^ k / (2 * 2 ^ j) = 2 ^ (k - j - 1) := by
          rw [show 2 * 2 ^ j = 2 ^ (j + 1) from by ring,
            Nat.pow_div (by omega) (by norm_num),
            show k - (j + 1) = k - j - 1 from by omega]
        rw [h1, h2, ← sq, ← pow_mul]
        have hexp : 2 * 2 ^ (k - j - 1) = 2 ^ (k - j) := by
          rw [← pow_succ']
          congr 1
          omega
        rw [hexp]
      rw [htwiddle,
        fftStage_append X Y _ _ (Nat.two_pow_pos j) (by rw [hXlen, hYlen])
          (by rw [hXlen, show 2 * 2 ^ j = 2 ^ (j + 1) from by ring]
              exact pow_dvd_pow 2 (by omega))]
  unfold fftStages
  rw [List.range_succ, List.foldl_append, List.foldl_cons, List.foldl_nil,
    main k le_rfl]
  have hfin : 2 ^ (k + 1) / (2 * 2 ^ k) = 1 := by
    rw [show 2 * 2 ^ k = 2 ^ (k + 1) from by ring]
    exact Nat.div_self (Nat.two_pow_pos _)
  rw [hfin, pow_one]

theorem recFFT_length (k : ℕ) (a : List F) (ω : F) (ha : a.length = 2 ^ k) :
    (recFFT k a ω).length = 2 ^ k := by
  cases k with
  | zero => rw [show recFFT 0 a ω = a from rfl, ha]
  | succ k =>
    have hr : recFFT (k + 1) a ω =
        ((List.range (2 ^ k)).map (fun i =>
          coeffAt (recFFT k (evens a) (ω * ω)) i +
            ω ^ i * coeffAt (recFFT k (odds a) (ω * ω)) i)) ++
        ((List.range (2 ^ k)).map (fun i =>
          coeffAt (recFFT k (evens a) (ω * ω)) i -
            ω ^ i * coeffAt (recFFT k (odds a) (ω * ω)) i)) := rfl
    rw [hr]
    simp only [List.length_append, List.length_map, List.length_range]
    rw [pow_succ]
    omega

/-- The iterative network of `serial_fft` computes the recursive radix-2
decimation-in-time transform. -/
theorem fftCore_eq_recFFT : ∀ (k : ℕ) (a : List F) (ω : F), a.length = 2 ^ k →
    fftCore a ω k = recFFT k a ω := by
  intro k
  induction k with
  | zero =>
    intro a ω ha
    show fftStages (bitrevPerm a 0) ω 0 = recFFT 0 a ω
    rw [show recFFT 0 a ω = a from rfl]
    show (List.range a.length).foldl (brStep 0) a = a
    rw [ha]
    show brStep 0 a 0 = a
    rw [show brStep 0 a 0 = if 0 < bitreverse 0 0 then _ else a from rfl]
    rw [if_neg (by rw [show bitreverse 0 0 = 0 from rfl]; omega)]
  | succ k ih =>
    intro a ω ha
    have helen : (evens a).length = 2 ^ k := by
      rw [(evens_odds_length a).1, ha]
      have : (2 : ℕ) ^ (k + 1) = 2 * 2 ^ k := by ring
      omega
    have holen : (odds a).length = 2 ^ k := by
      rw [(evens_odds_length a).2, ha]
      have : (2 : ℕ) ^ (k + 1) = 2 * 2 ^ k := by ring
      omega
    have hbit : bitrevPerm a (k + 1) =
        bitrevPerm (evens a) k ++ bitrevPerm (odds a) k := by
      obtain ⟨hl1, hv1⟩ := bitrevPerm_spec a (k + 1) ha
      obtain ⟨hl2, hv2⟩ := bitrevPerm_spec (evens a) k helen
      obtain ⟨hl3, hv3⟩ := bitrevPerm_spec (odds a) k holen
      refine List.ext_getElem ?_ ?_
      · rw [hl1, List.length_append, hl2, hl3, helen, holen, ha]
        ring
      · intro i hi1 hi2
        have hi3 : i < 2 ^ (k + 1) := by
          rw [hl1, ha] at hi1
          exact hi1
        suffices hpoint : coeffAt (bitrevPerm a (k + 1)) i =
            coeffAt (bitrevPerm (evens a) k ++ bitrevPerm (odds a) k) i by
          rw [coeffAt_of_lt _ _ hi1, coeffAt_of_lt _ _ hi2] at hpoint
          simpa using hpoint
        rw [hv1 i (by omega)]
        by_cases hfirst : i < 2 ^ k
        · rw [show coeffAt (bitrevPerm (evens a) k ++ bitrevPerm (odds a) k) i
              = coeffAt (bitrevPerm (evens a) k) i from
            List.getD_append _ _ 0 i (by rw [hl2, helen]; omega),
            hv2 i (by omega), (coeffAt_evens_odds a _).1,
            bitreverse_first_half k i hfirst]
        · push_neg at hfirst
          set j := i - 2 ^ k with hjdef
          have hjlt : j < 2 ^ k := by
            have : (2 : ℕ) ^ (k + 1) = 2 * 2 ^ k := by ring
            omega
          have hij : i = j + 2 ^ k := by omega
          have happ : coeffAt (bitrevPerm (evens a) k ++ bitrevPerm (odds a) k) i
              = coeffAt (bitrevPerm (odds a) k) j := by
            have hgdr := List.getD_append_right (bitrevPerm (evens a) k)
              (bitrevPerm (odds a) k) 0 i (by rw [hl2, helen]; omega)
            rw [hl2, helen] at hgdr
            rw [hjdef]
            exact hgdr
          rw [happ, hv3 j (by omega), (coeffAt_evens_odds a _).2, hij,
            bitreverse_second_half k j hjlt]
      -- lengths of the halves after permutation
    show fftStages (bitrevPerm a (k + 1)) ω (k + 1) = _
    obtain ⟨hl2, _⟩ := bitrevPerm_spec (evens a) k helen
    obtain ⟨hl3, _⟩ := bitrevPerm_spec (odds a) k holen
    rw [hbit, fftStages_split _ _ ω k (by rw [hl2, helen]) (by rw [hl3, holen])]
    have hcoreE : fftStages (bitrevPerm (evens a) k) (ω * ω) k =
        recFFT k (evens a) (ω * ω) := ih (evens a) (ω * ω) helen
    have hcoreO : fftStages (bitrevPerm (odds a) k) (ω * ω) k =
        recFFT k (odds a) (ω * ω) := ih (odds a) (ω * ω) holen
    rw [hcoreE, hcoreO,
      fftStage_final _ _ ω (2 ^ k) (Nat.two_pow_pos k)
        (recFFT_length k (evens a) (ω * ω) helen)
        (recFFT_length k (odds a) (ω * ω) holen)]
    rfl

/-! ### The network computes the DFT -/

theorem sum_range_even_odd (f : ℕ → F) (n : ℕ) :
    ∑ j in Finset.range (2 * n), f j =
    (∑ j in Finset.range n, f (2 * j)) + ∑ j in Finset.range n, f (2 * j + 1) := by
  induction n with
  | zero => simp
  | succ n ih =>
    have h1 : 2 * (n + 1) = (2 * n + 1) + 1 := by ring
    rw [h1, Finset.sum_range_succ, Finset.sum_range_succ, ih,
      Finset.sum_range_succ, Finset.sum_range_succ]
    ring

theorem dftF_length (a : List F) (ω : F) : (dftF a ω).length = a.length := by
  simp [dftF]

theorem coeffAt_dftF (a : List F) (ω : F) (u : ℕ) (hu : u < a.length) :
    coeffAt (dftF a ω) u = ∑ j in Finset.range a.length, coeffAt a j * ω ^ (j * u) :=
  coeffAt_rangeMap _ _ _ hu

theorem recFFT_eq_dft : ∀ (k : ℕ) (a : List F) (ω : F), a.length = 2 ^ k →
    ω ^ (2 ^ k) = 1 → (∀ j, j < k → ω ^ (2 ^ j) ≠ 1) →
    recFFT k a ω = dftF a ω := by
  intro k
  induction k with
  | zero =>
    intro a ω ha _ _
    obtain ⟨x, rfl⟩ := List.length_eq_one.mp (by rw [ha]; rfl)
    show [x] = dftF [x] ω
    unfold dftF
    simp [coeffAt]
  | succ k ih =>
    intro a ω ha hpow hprim
    have helen : (evens a).length = 2 ^ k := by
      rw [(evens_odds_length a).1, ha]
      have h2 : (2 : ℕ) ^ (k + 1) = 2 * 2 ^ k := by ring
      omega
    have holen : (odds a).length = 2 ^ k := by
      rw [(evens_odds_length a).2, ha]
      have h2 : (2 : ℕ) ^ (k + 1) = 2 * 2 ^ k := by ring
      omega
    have hhalf : ω ^ (2 ^ k) = -1 := by
      have hsq : ω ^ (2 ^ k) * ω ^ (2 ^ k) = 1 := by
        rw [← pow_add, show 2 ^ k + 2 ^ k = 2 ^ (k + 1) from by ring]
        exact hpow
      rcases mul_self_eq_one_iff.mp hsq with h | h
      · exact absurd h (hprim k (by omega))
      · exact h
    have hω2 : ∀ t : ℕ, (ω * ω) ^ t = ω ^ (2 * t) := by
      intro t
      rw [← sq, ← pow_mul]
    have hsq2 : (ω * ω) ^ (2 ^ k) = 1 := by
      rw [hω2, show 2 * 2 ^ k = 2 ^ (k + 1) from by ring]
      exact hpow
    have hprim2 : ∀ j, j < k → (ω * ω) ^ (2 ^ j) ≠ 1 := by
      intro j hj
      rw [hω2, show 2 * 2 ^ j = 2 ^ (j + 1) from by ring]
      exact hprim (j + 1) (by omega)
    have hE := ih (evens a) (ω * ω) helen hsq2 hprim2
    have hO := ih (odds a) (ω * ω) holen hsq2 hprim2
    have hrec : recFFT (k + 1) a ω =
        ((List.range (2 ^ k)).map (fun i =>
          coeffAt (recFFT k (evens a) (ω * ω)) i +
            ω ^ i * coeffAt (recFFT k (odds a) (ω * ω)) i)) ++
        ((List.range (2 ^ k)).map (fun i =>
          coeffAt (recFFT k (evens a) (ω * ω)) i -
            ω ^ i * coeffAt (recFFT k (odds a) (ω * ω)) i)) := rfl
    have hmaplen : (((List.range (2 ^ k)).map (fun i =>
        coeffAt (recFFT k (evens a) (ω * ω)) i +
          ω ^ i * coeffAt (recFFT k (odds a) (ω * ω)) i))).length = 2 ^ k := by
      rw [List.length_map, List.length_range]
    refine List.ext_getElem ?_ ?_
    · rw [recFFT_length (k + 1) a ω ha, dftF_length, ha]
    · intro u hu1 hu2
      have hu3 : u < 2 ^ (k + 1) := by
        rw [recFFT_length (k + 1) a ω ha] at hu1
        exact hu1
      suffices hpoint : coeffAt (recFFT (k + 1) a ω) u = coeffAt (dftF a ω) u by
        rw [coeffAt_of_lt _ _ hu1, coeffAt_of_lt _ _ hu2] at hpoint
        simpa using hpoint
      rw [coeffAt_dftF a ω u (by omega), ha,
        show (2 : ℕ) ^ (k + 1) = 2 * 2 ^ k from by ring,
        sum_range_even_odd (fun j => coeffAt a j * ω ^ (j * u)) (2 ^ k)]
      by_cases hfirst : u < 2 ^ k
      · -- first half: E_u + ω^u O_u
        have hL : coeffAt (recFFT (k + 1) a ω) u =
            coeffAt (recFFT k (evens a) (ω * ω)) u +
              ω ^ u * coeffAt (recFFT k (odds a) (ω * ω)) u := by
          rw [hrec]
          have := List.getD_append (((List.range (2 ^ k)).map (fun i =>
            coeffAt (recFFT k (evens a) (ω * ω)) i +
              ω ^ i * coeffAt (recFFT k (odds a) (ω * ω)) i)))
            (((List.range (2 ^ k)).map (fun i =>
            coeffAt (recFFT k (evens a) (ω * ω)) i -
              ω ^ i * coeffAt (recFFT k (odds a) (ω * ω)) i))) 0 u
            (by rw [hmaplen]; exact hfirst)
          rw [show coeffAt (((List.range (2 ^ k)).map (fun i =>
            coeffAt (recFFT k (evens a) (ω * ω)) i +
              ω ^ i * coeffAt (recFFT k (odds a) (ω * ω)) i)) ++
            ((List.range (2 ^ k)).map (fun i =>
            coeffAt (recFFT k (evens a) (ω * ω)) i -
              ω ^ i * coeffAt (recFFT k (odds a) (ω * ω)) i))) u =
            coeffAt (((List.range (2 ^ k)).map (fun i =>
            coeffAt (recFFT k (evens a) (ω * ω)) i +
              ω ^ i * coeffAt (recFFT k (odds a) (ω * ω)) i))) u from this,
            coeffAt_rangeMap _ _ _ hfirst]
        rw [hL, hE, hO, coeffAt_dftF _ _ u (by rw [helen]; exact hfirst),
          coeffAt_dftF _ _ u (by rw [holen]; exact hfirst), helen, holen]
        have heven : ∀ j, coeffAt a (2 * j) * ω ^ (2 * j * u) =
            coeffAt (evens a) j * (ω * ω) ^ (j * u) := by
          intro j
          rw [(coeffAt_evens_odds a j).1, hω2,
            show 2 * j * u = 2 * (j * u) from by ring]
        have hodd : ∀ j, coeffAt a (2 * j + 1) * ω ^ ((2 * j + 1) * u) =
            ω ^ u * (coeffAt (odds a) j * (ω * ω) ^ (j * u)) := by
          intro j
          rw [(coeffAt_evens_odds a j).2, hω2,
            show (2 * j + 1) * u = 2 * (j * u) + u from by ring, pow_add]
          ring
        rw [Finset.sum_congr rfl (fun j _ => heven j),
          Finset.sum_congr rfl (fun j _ => hodd j), ← Finset.mul_sum]
      · -- second half: E_{u'} - ω^{u'} O_{u'}
        push_neg at hfirst
        set v := u - 2 ^ k with hvdef
        have hvlt : v < 2 ^ k := by
          have h2 : (2 : ℕ) ^ (k + 1) = 2 * 2 ^ k := by ring
          omega
        have huv : u = v + 2 ^ k := by omega
        have hL : coeffAt (recFFT (k + 1) a ω) u =
            coeffAt (recFFT k (evens a) (ω * ω)) v -
              ω ^ v * coeffAt (recFFT k (odds a) (ω * ω)) v := by
          rw [hrec]
          have hgdr := List.getD_append_right (((List.range (2 ^ k)).map (fun i =>
            coeffAt (recFFT k (evens a) (ω * ω)) i +
              ω ^ i * coeffAt (recFFT k (odds a) (ω * ω)) i)))
            (((List.range (2 ^ k)).map (fun i =>
            coeffAt (recFFT k (evens a) (ω * ω)) i -
              ω ^ i * coeffAt (recFFT k (odds a) (ω * ω)) i))) 0 u
            (by rw [hmaplen]; exact hfirst)
          rw [hmaplen] at hgdr
          rw [show coeffAt (((List.range (2 ^ k)).map (fun i =>
            coeffAt (recFFT k (evens a) (ω * ω)) i +
              ω ^ i * coeffAt (recFFT k (odds a) (ω * ω)) i)) ++
            ((List.range (2 ^ k)).map (fun i =>
            coeffAt (recFFT k (evens a) (ω * ω)) i -
              ω ^ i * coeffAt (recFFT k (odds a) (ω * ω)) i))) u =
            coeffAt (((List.range (2 ^ k)).map (fun i =>
            coeffAt (recFFT k (evens a) (ω * ω)) i -
              ω ^ i * coeffAt (recFFT k (odds a) (ω * ω)) i))) (u - 2 ^ k) from hgdr,
            ← hvdef, coeffAt_rangeMap _ _ _ hvlt]
        rw [hL, hE, hO, coeffAt_dftF _ _ v (by rw [helen]; exact hvlt),
          coeffAt_dftF _ _ v (by rw [holen]; exact hvlt), helen, holen]
        have heven : ∀ j, coeffAt a (2 * j) * ω ^ (2 * j * u) =
            coeffAt (evens a) j * (ω * ω) ^ (j * v) := by
          intro j
          rw [(coeffAt_evens_odds a j).1, hω2, huv,
            show 2 * j * (v + 2 ^ k) = 2 ^ (k + 1) * j + 2 * (j * v) from by ring,
            pow_add, pow_mul, hpow, one_pow, one_mul]
        have hodd : ∀ j, coeffAt a (2 * j + 1) * ω ^ ((2 * j + 1) * u) =
            -(ω ^ v * (coeffAt (odds a) j * (ω * ω) ^ (j * v))) := by
          intro j
          rw [(coeffAt_evens_odds a j).2, hω2, huv,
            show (2 * j + 1) * (v + 2 ^ k) =
              2 ^ (k + 1) * j + (2 * (j * v) + (2 ^ k + v)) from by ring,
            pow_add, pow_mul, hpow, one_pow, one_mul, pow_add, pow_add, hhalf]
          ring
        rw [Finset.sum_congr rfl (fun j _ => heven j),
          Finset.sum_congr rfl (fun j _ => hodd j), Finset.sum_neg_distrib,
          ← Finset.mul_sum]
        ring

/-! ### DFT inversion -/

theorem orderOf_of_prim (ω : F) (k : ℕ) (hpow : ω ^ (2 ^ k) = 1)
    (hprim : ∀ j, j < k → ω ^ (2 ^ j) ≠ 1) : orderOf ω = 2 ^ k := by
  cases k with
  | zero => simpa using orderOf_eq_one_iff.mpr (by simpa using hpow)
  | succ m =>
    haveI : Fact (Nat.Prime 2) := ⟨Nat.prime_two⟩
    exact orderOf_eq_prime_pow (hprim m (by omega)) hpow

theorem prim_pow_ne_one (ω : F) (k : ℕ) (hpow : ω ^ (2 ^ k) = 1)
    (hprim : ∀ j, j < k → ω ^ (2 ^ j) ≠ 1) :
    ∀ d, 0 < d → d < 2 ^ k → ω ^ d ≠ 1 := by
  intro d hd1 hd2 hc
  have horder := orderOf_of_prim ω k hpow hprim
  have hdvd : orderOf ω ∣ d := orderOf_dvd_of_pow_eq_one hc
  rw [horder] at hdvd
  have := Nat.le_of_dvd hd1 hdvd
  omega

theorem prim_ne_zero (ω : F) (k : ℕ) (hpow : ω ^ (2 ^ k) = 1) : ω ≠ 0 := by
  intro hc
  rw [hc, zero_pow (by positivity)] at hpow
  exact zero_ne_one hpow

theorem geom_sum_root (x : F) (n : ℕ) (hx : x ≠ 1) (hxn : x ^ n = 1) :
    ∑ i in Finset.range n, x ^ i = 0 := by
  have h := geom_sum_eq hx n
  rw [hxn, sub_self, zero_div] at h
  exact h

theorem dft_orthogonality (ω : F) (k : ℕ) (hpow : ω ^ (2 ^ k) = 1)
    (hprim : ∀ j, j < k → ω ^ (2 ^ j) ≠ 1) (j l : ℕ)
    (hj : j < 2 ^ k) (hl : l < 2 ^ k) :
    ∑ i in Finset.range (2 ^ k), (ω ^ j * (ω⁻¹) ^ l) ^ i =
      if j = l then ((2 ^ k : ℕ) : F) else 0 := by
  have hωne := prim_ne_zero ω k hpow
  by_cases hjl : j = l
  · subst hjl
    rw [if_pos rfl]
    have hx1 : ω ^ j * (ω⁻¹) ^ j = 1 := by
      rw [inv_pow, mul_inv_cancel₀ (pow_ne_zero j hωne)]
    rw [hx1]
    simp
  · rw [if_neg hjl]
    set x := ω ^ j * (ω⁻¹) ^ l with hxdef
    have hxn : x ^ (2 ^ k) = 1 := by
      rw [hxdef, mul_pow, ← pow_mul, ← pow_mul, mul_comm j, mul_comm l,
        pow_mul, pow_mul, hpow, inv_pow, hpow, one_pow, inv_one, one_pow,
        one_mul]
    have hcancel : ∀ s t : ℕ, s ≤ t → ω ^ s = ω ^ t → ω ^ (t - s) = 1 := by
      intro s t hst h
      have h3 : ω ^ t = ω ^ (t - s) * ω ^ s := by
        rw [← pow_add]
        congr 1
        omega
      rw [h3] at h
      have h4 : (1 : F) * ω ^ s = ω ^ (t - s) * ω ^ s := by rw [one_mul]; exact h
      exact (mul_right_cancel₀ (pow_ne_zero s hωne) h4).symm
    have hx1 : x ≠ 1 := by
      intro hc
      rw [hxdef, inv_pow] at hc
      have heq : ω ^ j = ω ^ l := by
        have h2 := congrArg (fun y => y * ω ^ l) hc
        simp only [one_mul] at h2
        rw [mul_assoc, inv_mul_cancel₀ (pow_ne_zero l hωne), mul_one] at h2
        exact h2
      rcases Nat.lt_or_ge j l with hlt | hge
      · exact prim_pow_ne_one ω k hpow hprim (l - j) (by omega) (by omega)
          (hcancel j l (by omega) heq)
      · have hlj : l < j := by omega
        exact prim_pow_ne_one ω k hpow hprim (j - l) (by omega) (by omega)
          (hcancel l j (by omega) heq.symm)
    exact geom_sum_root x (2 ^ k) hx1 hxn

theorem dft_inversion (a : List F) (ω : F) (k : ℕ) (ha : a.length = 2 ^ k)
    (hpow : ω ^ (2 ^ k) = 1) (hprim : ∀ j, j < k → ω ^ (2 ^ j) ≠ 1)
    (l : ℕ) (hl : l < 2 ^ k) :
    coeffAt (dftF (dftF a ω) ω⁻¹) l = ((2 ^ k : ℕ) : F) * coeffAt a l := by
  have hblen : (dftF a ω).length = 2 ^ k := by rw [dftF_length, ha]
  rw [coeffAt_dftF _ _ l (by omega), hblen]
  have hterm : ∀ i, i < 2 ^ k →
      coeffAt (dftF a ω) i * (ω⁻¹) ^ (i * l) =
      ∑ j in Finset.range (2 ^ k), coeffAt a j * (ω ^ (j * i) * (ω⁻¹) ^ (i * l)) := by
    intro i hi
    rw [coeffAt_dftF _ _ i (by omega), ha, Finset.sum_mul]
    exact Finset.sum_congr rfl (fun j _ => by ring)
  rw [Finset.sum_congr rfl (fun i hi => hterm i (Finset.mem_range.mp hi)),
    Finset.sum_comm]
  have hrow : ∀ j, j < 2 ^ k →
      ∑ i in Finset.range (2 ^ k), coeffAt a j * (ω ^ (j * i) * (ω⁻¹) ^ (i * l)) =
      coeffAt a j * (if j = l then ((2 ^ k : ℕ) : F) else 0) := by
    intro j hj
    rw [← Finset.mul_sum]
    congr 1
    rw [← dft_orthogonality ω k hpow hprim j l hj hl]
    refine Finset.sum_congr rfl (fun i _ => ?_)
    rw [mul_pow, ← pow_mul, ← pow_mul, mul_comm i l]
  rw [Finset.sum_congr rfl (fun j hj => hrow j (Finset.mem_range.mp hj))]
  have hite : ∀ j, coeffAt a j * (if j = l then ((2 ^ k : ℕ) : F) else 0) =
      if j = l then coeffAt a j * ((2 ^ k : ℕ) : F) else 0 := by
    intro j
    by_cases h : j = l <;> simp [h]
  rw [Finset.sum_congr rfl (fun j _ => hite j),
    Finset.sum_ite_eq' (Finset.range (2 ^ k)) l
      (fun j => coeffAt a j * ((2 ^ k : ℕ) : F)),
    if_pos (Finset.mem_range.mpr hl)]
  ring

/-! ### Claim C6: the inverse NTT inverts the NTT -/

/-- C6: for every buffer of length `2^k` and `ω` a primitive `2^k`-th root of
unity, `serial_ifft (serial_fft a ω k) ω k` returns the original buffer. -/
theorem serial_fft_roundtrip (a : List F) (ω : F) (k : ℕ)
    (ha : a.length = 2 ^ k)
    (hpow : ω ^ (2 ^ k) = 1)
    (hprim : ∀ j, j < k → ω ^ (2 ^ j) ≠ 1) :
    (serial_fft a ω k).bind (fun b => serial_ifft b ω k) = some a := by
  have hn0 : ((2 ^ k : ℕ) : F) ≠ 0 := by
    cases k with
    | zero => simpa using one_ne_zero
    | succ m =>
      intro hc
      have h2 : ((2 : ℕ) : F) = 0 := by
        have hcast : ((2 ^ (m + 1) : ℕ) : F) = ((2 : ℕ) : F) ^ (m + 1) := by
          push_cast
          ring
        rw [hcast] at hc
        exact pow_eq_zero_iff (by omega) |>.mp hc
      have hone : (1 : F) = -1 := by
        have h3 : (1 : F) + 1 = 0 := by
          have hc2 : ((2 : ℕ) : F) = (1 : F) + 1 := by push_cast; ring
          rw [← hc2, h2]
        exact eq_neg_of_add_eq_zero_left h3
      have hhalf : ω ^ (2 ^ m) = -1 := by
        have hsq : ω ^ (2 ^ m) * ω ^ (2 ^ m) = 1 := by
          rw [← pow_add, show 2 ^ m + 2 ^ m = 2 ^ (m + 1) from by ring]
          exact hpow
        rcases mul_self_eq_one_iff.mp hsq with h | h
        · exact absurd h (hprim m (by omega))
        · exact h
      exact hprim m (by omega) (by rw [hhalf, ← hone])
  have hfft : serial_fft a ω k = some (dftF a ω) := by
    unfold serial_fft
    rw [if_pos ha, fftCore_eq_recFFT k a ω ha, recFFT_eq_dft k a ω ha hpow hprim]
  rw [hfft]
  show serial_ifft (dftF a ω) ω k = some a
  set b := dftF a ω with hbdef
  have hblen : b.length = 2 ^ k := by rw [hbdef, dftF_length, ha]
  have hipow : (ω⁻¹) ^ (2 ^ k) = 1 := by
    rw [inv_pow, hpow, inv_one]
  have hiprim : ∀ j, j < k → (ω⁻¹) ^ (2 ^ j) ≠ 1 := by
    intro j hj hc
    rw [inv_pow, inv_eq_one] at hc
    exact hprim j hj hc
  unfold serial_ifft
  rw [if_neg (by rw [hblen]; exact hn0)]
  have hfft2 : serial_fft b ω⁻¹ k = some (dftF b ω⁻¹) := by
    unfold serial_fft
    rw [if_pos hblen, fftCore_eq_recFFT k b ω⁻¹ hblen,
      recFFT_eq_dft k b ω⁻¹ hblen hipow hiprim]
  rw [hfft2]
  show some ((dftF b ω⁻¹).map (fun x => x * (b.length : F)⁻¹)) = some a
  congr 1
  refine List.ext_getElem ?_ ?_
  · rw [List.length_map, dftF_length, hblen, ha]
  · intro i hi1 hi2
    have hi3 : i < 2 ^ k := by
      rw [List.length_map, dftF_length, hblen] at hi1
      exact hi1
    suffices hpoint : coeffAt ((dftF b ω⁻¹).map (fun x => x * (b.length : F)⁻¹)) i
        = coeffAt a i by
      rw [coeffAt_of_lt _ _ hi1, coeffAt_of_lt _ _ hi2] at hpoint
      simpa using hpoint
    have hib : i < (dftF b ω⁻¹).length := by rw [dftF_length, hblen]; exact hi3
    have hmapped : coeffAt ((dftF b ω⁻¹).map (fun x => x * (b.length : F)⁻¹)) i =
        coeffAt (dftF b ω⁻¹) i * (b.length : F)⁻¹ := by
      rw [coeffAt_of_lt _ _ (show i <
            ((dftF b ω⁻¹).map (fun x => x * (b.length : F)⁻¹)).length from by
          rw [List.length_map]; exact hib),
        coeffAt_of_lt _ _ hib]
      simp
    have hinv : coeffAt (dftF b ω⁻¹) i = ((2 ^ k : ℕ) : F) * coeffAt a i := by
      rw [hbdef]; exact dft_inversion a ω k ha hpow hprim i hi3
    rw [hmapped, hinv, hblen]
    field_simp
    exact mul_div_cancel_left₀ _ (by exact_mod_cast hn0)

/-- Witness for C6 at `a = [1,2,3,4]`, `ω = 4` (a primitive 4th root of unity
in `ZMod 17`), `k = 2`. -/
theorem serial_fft_roundtrip_witness :
    (([1, 2, 3, 4] : List (ZMod 17)).length = 2 ^ 2) ∧
    ((4 : ZMod 17) ^ (2 ^ 2 : ℕ) = 1) ∧
    (∀ j, j < 2 → (4 : ZMod 17) ^ (2 ^ j : ℕ) ≠ 1) ∧
    ((serial_fft ([1, 2, 3, 4] : List (ZMod 17)) 4 2).bind
      (fun b => serial_ifft b 4 2) = some [1, 2, 3, 4]) :=
  ⟨by decide, by decide, by decide,
    serial_fft_roundtrip [1, 2, 3, 4] 4 2 (by decide) (by decide) (by decide)⟩

/-- C8: counterexample.  Over `ZMod 17` (`S = 4`, `ROOT_OF_UNITY = 3`) with
dividend `x^2 - 8x + 15 = (x-3)(x-5)` (stored `[15, 9, 1, 0]`) and divisor
`x - 3` (stored `[14, 1]`), the pipeline the specification describes — both
buffers padded to length `n * log₂ n = 8` and transformed at that size —
returns the exact quotient `x - 5 = [12, 1]`, but `divide_fft` transforms the
unpadded length-4 buffers and returns `[11, 12, 1, 6]`: the code never pads
the buffers to `n * log₂ n`. -/
theorem divide_fft_spec_counterexample :
    divide_fft 4 (3 : ZMod 17) [15, 9, 1, 0] [14, 1] = some [11, 12, 1, 6] ∧
    divideFFTSpecDescribed 4 (3 : ZMod 17) [15, 9, 1, 0] [14, 1] =
      some [12, 1] ∧
    divide_fft 4 (3 : ZMod 17) [15, 9, 1, 0] [14, 1] ≠
      divideFFTSpecDescribed 4 (3 : ZMod 17) [15, 9, 1, 0] [14, 1] := by
  have i15 : (15 : ZMod 17)⁻¹ = 8 := inv_eq_of_mul_eq_one_right (by decide)
  have i6 : (6 : ZMod 17)⁻¹ = 3 := inv_eq_of_mul_eq_one_right (by decide)
  have i13 : (13 : ZMod 17)⁻¹ = 4 := inv_eq_of_mul_eq_one_right (by decide)
  have i5 : (5 : ZMod 17)⁻¹ = 7 := inv_eq_of_mul_eq_one_right (by decide)
  have i10 : (10 : ZMod 17)⁻¹ = 12 := inv_eq_of_mul_eq_one_right (by decide)
  have i12 : (12 : ZMod 17)⁻¹ = 10 := inv_eq_of_mul_eq_one_right (by decide)
  have i16 : (16 : ZMod 17)⁻¹ = 16 := inv_eq_of_mul_eq_one_right (by decide)
  have i9 : (9 : ZMod 17)⁻¹ = 2 := inv_eq_of_mul_eq_one_right (by decide)
  have ic4 : ((4 : ℕ) : ZMod 17)⁻¹ = 13 := inv_eq_of_mul_eq_one_right (by decide)
  have ic8 : ((8 : ℕ) : ZMod 17)⁻¹ = 15 := inv_eq_of_mul_eq_one_right (by decide)
  have hcode : divide_fft 4 (3 : ZMod 17) [15, 9, 1, 0] [14, 1] =
      some [11, 12, 1, 6] := by
    have hstep : divide_fft 4 (3 : ZMod 17) [15, 9, 1, 0] [14, 1] =
        (serial_ifft (List.zipWith (fun x y => x * y⁻¹)
          ([8, 10, 7, 1] : List (ZMod 17)) [15, 6, 13, 5]) 9 2).map
            stripTrailZeros := rfl
    have hz : List.zipWith (fun x y => x * y⁻¹)
        ([8, 10, 7, 1] : List (ZMod 17)) [15, 6, 13, 5] = [13, 13, 11, 7] := by
      show [8 * (15 : ZMod 17)⁻¹, 10 * 6⁻¹, 7 * 13⁻¹, 1 * 5⁻¹] = [13, 13, 11, 7]
      rw [i15, i6, i13, i5]
      decide
    have hifft : serial_ifft ([13, 13, 11, 7] : List (ZMod 17)) 9 2 =
        some [11, 12, 1, 6] := by
      have hred : serial_ifft ([13, 13, 11, 7] : List (ZMod 17)) 9 2 =
          (serial_fft ([13, 13, 11, 7] : List (ZMod 17)) (9 : ZMod 17)⁻¹ 2).map
            (List.map (fun a => a * ((4 : ℕ) : ZMod 17)⁻¹)) := rfl
      rw [hred, i9, ic4]
      decide
    rw [hstep, hz, hifft]
    decide
  have hspec : divideFFTSpecDescribed 4 (3 : ZMod 17) [15, 9, 1, 0] [14, 1] =
      some [12, 1] := by
    have hstep : divideFFTSpecDescribed 4 (3 : ZMod 17) [15, 9, 1, 0] [14, 1] =
        (serial_ifft (List.zipWith (fun x y => x * y⁻¹)
          ([8, 7, 12, 1, 7, 15, 16, 3] : List (ZMod 17))
          [15, 6, 10, 12, 13, 5, 1, 16]) 9 3).map stripTrailZeros := rfl
    have hz : List.zipWith (fun x y => x * y⁻¹)
        ([8, 7, 12, 1, 7, 15, 16, 3] : List (ZMod 17))
        [15, 6, 10, 12, 13, 5, 1, 16] = [13, 4, 8, 10, 11, 3, 16, 14] := by
      show [8 * (15 : ZMod 17)⁻¹, 7 * 6⁻¹, 12 * 10⁻¹, 1 * 12⁻¹, 7 * 13⁻¹,
        15 * 5⁻¹, 16 * 1⁻¹, 3 * 16⁻¹] = [13, 4, 8, 10, 11, 3, 16, 14]
      rw [i15, i6, i10, i12, i13, i5, inv_one, i16]
      decide
    have hifft : serial_ifft ([13, 4, 8, 10, 11, 3, 16, 14] : List (ZMod 17))
        9 3 = some [12, 1, 0, 0, 0, 0, 0, 0] := by
      have hred : serial_ifft ([13, 4, 8, 10, 11, 3, 16, 14] : List (ZMod 17))
          9 3 =
          (serial_fft ([13, 4, 8, 10, 11, 3, 16, 14] : List (ZMod 17))
            (9 : ZMod 17)⁻¹ 3).map
              (List.map (fun a => a * ((8 : ℕ) : ZMod 17)⁻¹)) := rfl
      rw [hred, i9, ic8]
      decide
    rw [hstep, hz, hifft]
    decide
  refine ⟨hcode, hspec, ?_⟩
  rw [hcode, hspec]
  decide

/-- C8 (amended): `divide_fft` zero-pads the divisor to the dividend's length
`n`, requires `n * log₂ n` to be a power of two, uses the generator of the
domain of order `n * log₂ n` as the twiddle root, but forward- and
inverse-transforms both buffers at the dividend's own size `n` — no buffer is
ever padded to length `n * log₂ n` — then pointwise divides (aborting on a
zero divisor evaluation) and strips trailing zeros. -/
theorem divide_fft_eq_amended (S : ℕ) (r : F) (dividend divisor : List F) :
    divide_fft S r dividend divisor = divideFFTAmended S r dividend divisor := by
  simp only [divide_fft, divideFFTAmended]
  by_cases h1 : dividend.length < divisor.length
  · rw [if_pos h1, if_neg]
    intro hc
    omega
  · rw [if_neg h1]
    by_cases h2 : isPow2 (dividend.length * trailingZeros dividend.length)
    · rw [if_neg (by simpa using h2), if_pos ⟨Nat.le_of_not_lt h1, h2⟩]
      cases new_for_size S r (dividend.length * trailingZeros dividend.length) with
      | none => rfl
      | some d =>
        show (serial_fft dividend d.generator _).bind _ =
          (serial_fft dividend d.generator _).bind _
        cases serial_fft dividend d.generator (trailingZeros dividend.length) with
        | none => rfl
        | some ev1 =>
          show (serial_fft _ d.generator _).bind _ =
            (serial_fft _ d.generator _).bind _
          cases serial_fft
              (divisor ++ List.replicate (dividend.length - divisor.length) 0)
              d.generator (trailingZeros dividend.length) with
          | none => rfl
          | some ev2 =>
            show (if (ev2.any fun x => x == 0) = true then none else _) =
              (if (ev2.all fun x => !(x == 0)) = true then _ else none)
            by_cases hz : (ev2.any fun x => x == 0) = true
            · rw [if_pos hz, if_neg]
              intro hc
              rw [List.all_eq_true] at hc
              rw [List.any_eq_true] at hz
              obtain ⟨x, hx, hx0⟩ := hz
              have hxc := hc x hx
              simp only [Bool.not_eq_true'] at hxc
              rw [hxc] at hx0
              exact Bool.false_ne_true hx0
            · rw [if_neg hz, if_pos]
              rw [List.all_eq_true]
              intro x hx
              simp only [List.any_eq_true] at hz
              push_neg at hz
              have hxz := hz x hx
              simp only [Bool.not_eq_true']
              simpa using hxz
    · rw [if_pos (by simpa using h2), if_neg]
      intro hc
      exact h2 hc.2

/-- C9: `FriProof::verify` is not total on proofs built through the public
constructors.  With both authentication paths `⟨1, 2, []⟩`, evaluations `1`
and `2`, `w_com = blake3(1 || 2)` and empty `authentication_vector`,
`fold_queries` and `commitment_vector` — all assembled by the public
`FriChallenge::new`/`FriProof::new`, i.e. the plain structure constructors —
every consistency check passes and `verify` reaches
`commitment_vector().last().unwrap()` on the empty vector: a panic (`none`),
not `InvalidProof`, whatever the byte-level hash interpretations are. -/
theorem verify_not_total (interpE : HashT F → F) (interpR : HashT F → ℕ → F) :
    verify interpE interpR
      ⟨HashT.leafH 1 2, ⟨1, 2, ⟨1, 2, []⟩, ⟨1, 2, []⟩, [], [], []⟩⟩ = none := by
  simp [verify, contains_evaluation, derive_root, authCombine, containsLoop,
    rootsLoop]

/-! ### Merkle-tree lemmas for the authentication path round trip -/

theorem getD_eraseIdx_lt {α : Type} (l : List α) (i j : ℕ) (d : α) (h : j < i) :
    (l.eraseIdx i).getD j d = l.getD j d := by
  induction l generalizing i j with
  | nil => simp [List.eraseIdx]
  | cons a t ih =>
    cases i with
    | zero => omega
    | succ i2 =>
      cases j with
      | zero => rfl
      | succ j2 =>
        show (t.eraseIdx i2).getD j2 d = t.getD j2 d
        exact ih i2 j2 (by omega)

theorem getD_eraseIdx_ge {α : Type} (l : List α) (i j : ℕ) (d : α)
    (hi : i < l.length) (h : i ≤ j) :
    (l.eraseIdx i).getD j d = l.getD (j + 1) d := by
  induction l generalizing i j with
  | nil => simp at hi
  | cons a t ih =>
    cases i with
    | zero => rfl
    | succ i2 =>
      cases j with
      | zero => omega
      | succ j2 =>
        show (t.eraseIdx i2).getD j2 d = t.getD (j2 + 1) d
        exact ih i2 j2 (by simpa using hi) (by omega)

theorem hashAt_of_lt (l : List (HashT F)) (i : ℕ) (h : i < l.length) :
    hashAt l i = l.get ⟨i, h⟩ := by
  show (l.get? i).getD HashT.zeroH = _
  rw [List.get?_eq_get h]; rfl

theorem hashAt_rangeMap (n i : ℕ) (f : ℕ → HashT F) (h : i < n) :
    hashAt ((List.range n).map f) i = f i := by
  show ((List.range n).map f).getD i HashT.zeroH = f i
  rw [List.getD_eq_getElem _ _ (by simpa using h), List.getElem_map,
    List.getElem_range]

theorem leafRound_length (e : List F) : (leafRound e).length = e.length / 2 := by
  simp [leafRound]

theorem pairRoundM_length (hs : List (HashT F)) :
    (pairRoundM hs).length = hs.length / 2 := by
  simp [pairRoundM]

theorem hashAt_leafRound (e : List F) (i : ℕ) (h : i < e.length / 2) :
    hashAt (leafRound e) i =
      HashT.leafH (coeffAt e (2 * i)) (coeffAt e (2 * i + 1)) :=
  hashAt_rangeMap _ i _ h

theorem hashAt_pairRoundM (hs : List (HashT F)) (i : ℕ) (h : i < hs.length / 2) :
    hashAt (pairRoundM hs) i =
      HashT.nodeH (hashAt hs (2 * i)) (hashAt hs (2 * i + 1)) :=
  hashAt_rangeMap _ i _ h

theorem pairRoundM_iterate_length (m : ℕ) :
    ∀ (t : ℕ) (hs : List (HashT F)), hs.length = 2 ^ t → m ≤ t →
      (pairRoundM^[m] hs).length = 2 ^ (t - m) := by
  induction m with
  | zero => intro t hs hlen _; simpa using hlen
  | succ m2 ih =>
    intro t hs hlen hm
    rw [Function.iterate_succ_apply]
    have h1 : (pairRoundM hs).length = 2 ^ (t - 1) := by
      rw [pairRoundM_length, hlen]
      cases t with
      | zero => omega
      | succ t2 =>
        have : 2 ^ (t2 + 1) = 2 ^ t2 * 2 := by rw [pow_succ]
        rw [this]
        simp
    rw [ih (t - 1) (pairRoundM hs) h1 (by omega)]
    congr 1
    omega

theorem hashAt_eraseIdx_lt₀ (l : List (HashT F)) (i j : ℕ) (h : j < i) :
    hashAt (l.eraseIdx i) j = hashAt l j :=
  getD_eraseIdx_lt l i j _ h

theorem hashAt_eraseIdx_ge₀ (l : List (HashT F)) (i j : ℕ)
    (hi : i < l.length) (h : i ≤ j) :
    hashAt (l.eraseIdx i) j = hashAt l (j + 1) :=
  getD_eraseIdx_ge l i j _ hi h

theorem pairRoundM_erasePair (hs : List (HashT F)) (q idx : ℕ)
    (hidx : idx = 2 * q ∨ idx = 2 * q + 1) (hb : 2 * q + 1 < hs.length) :
    pairRoundM ((hs.eraseIdx idx).eraseIdx (2 * q)) =
      (pairRoundM hs).eraseIdx q := by
  have hilen : idx < hs.length := by omega
  have hlen1 : (hs.eraseIdx idx).length = hs.length - 1 :=
    List.length_eraseIdx_of_lt hilen
  have hlenL : ((hs.eraseIdx idx).eraseIdx (2 * q)).length = hs.length - 2 := by
    rw [List.length_eraseIdx_of_lt (by omega), hlen1]
    omega
  have hg : ∀ j : ℕ, ((hs.eraseIdx idx).eraseIdx (2 * q)).getD j HashT.zeroH =
      if j < 2 * q then hs.getD j HashT.zeroH else hs.getD (j + 2) HashT.zeroH := by
    intro j
    by_cases hj : j < 2 * q
    · rw [if_pos hj, getD_eraseIdx_lt _ _ _ _ hj,
        getD_eraseIdx_lt _ _ _ _ (by omega)]
    · rw [if_neg hj, getD_eraseIdx_ge _ _ _ _ (by omega) (by omega)]
      rcases hidx with h1 | h1
      · rw [h1, getD_eraseIdx_ge _ _ _ _ (by omega) (by omega)]
      · rw [h1, getD_eraseIdx_ge _ _ _ _ (by omega) (by omega)]
  refine List.ext_getElem ?_ ?_
  · rw [pairRoundM_length, hlenL,
      List.length_eraseIdx_of_lt (by rw [pairRoundM_length]; omega),
      pairRoundM_length]
    omega
  · intro i hi1 hi2
    rw [pairRoundM_length, hlenL] at hi1
    rw [List.length_eraseIdx_of_lt (by rw [pairRoundM_length]; omega),
      pairRoundM_length] at hi2
    suffices hpoint : hashAt (pairRoundM ((hs.eraseIdx idx).eraseIdx (2 * q))) i =
        hashAt ((pairRoundM hs).eraseIdx q) i by
      rw [hashAt_of_lt _ _ (by rw [pairRoundM_length, hlenL]; exact hi1),
        hashAt_of_lt _ _ (by
          rw [List.length_eraseIdx_of_lt (by rw [pairRoundM_length]; omega),
            pairRoundM_length]
          exact hi2)] at hpoint
      simpa using hpoint
    rw [hashAt_pairRoundM _ _ (by rw [hlenL]; omega)]
    show HashT.nodeH (((hs.eraseIdx idx).eraseIdx (2 * q)).getD (2 * i) HashT.zeroH)
        (((hs.eraseIdx idx).eraseIdx (2 * q)).getD (2 * i + 1) HashT.zeroH) = _
    rw [hg (2 * i), hg (2 * i + 1)]
    by_cases hiq : i < q
    · rw [if_pos (by omega), if_pos (by omega),
        hashAt_eraseIdx_lt₀ _ _ _ hiq, hashAt_pairRoundM _ _ (by omega)]
      rfl
    · rw [if_neg (by omega), if_neg (by omega),
        hashAt_eraseIdx_ge₀ _ _ _ (by rw [pairRoundM_length]; omega) (by omega),
        hashAt_pairRoundM _ _ (by omega)]
      have e1 : 2 * (i + 1) = 2 * i + 2 := by omega
      rw [e1]
      have e3 : 2 * i + 1 + 2 = 2 * i + 2 + 1 := by omega
      rw [e3]
      rfl

theorem authCombine_sibling (Lv : List (HashT F)) (idx : ℕ)
    (hb : idx < Lv.length) (heven : Lv.length % 2 = 0) :
    authCombine (hashAt Lv idx)
      ⟨hashAt (Lv.eraseIdx idx) (if idx % 2 = 0 then idx else idx - 1),
        idx % 2 == 1⟩ =
      hashAt (pairRoundM Lv) (idx / 2) := by
  by_cases hpar : idx % 2 = 0
  · rw [if_pos hpar, hashAt_eraseIdx_ge₀ _ _ _ hb le_rfl]
    show (if ((idx % 2 == 1) : Bool) then _ else _) = _
    rw [if_neg (by simp [hpar])]
    rw [hashAt_pairRoundM _ _ (by omega)]
    have h2 : 2 * (idx / 2) = idx := by omega
    rw [h2]
  · rw [if_neg hpar, hashAt_eraseIdx_lt₀ _ _ _ (by omega)]
    show (if ((idx % 2 == 1) : Bool) then _ else _) = _
    rw [if_pos (by simp; omega)]
    rw [hashAt_pairRoundM _ _ (by omega)]
    have h3 : 2 * (idx / 2) + 1 = idx := by omega
    have h2 : 2 * (idx / 2) = idx - 1 := by omega
    rw [h3, h2]

theorem authLoop_spec (k : ℕ) :
    ∀ (Lv : List (HashT F)) (idx : ℕ) (av : List (AuthHashE F)),
      Lv.length = 2 ^ (k + 1) → idx < Lv.length →
      ∃ ext, authLoop k (Lv.eraseIdx idx) idx av =
          some ((pairRoundM^[k] Lv).eraseIdx (idx / 2 ^ k), idx / 2 ^ k,
            av ++ ext) ∧
        List.foldl authCombine (hashAt Lv idx) ext =
          hashAt (pairRoundM^[k] Lv) (idx / 2 ^ k) := by
  induction k with
  | zero =>
    intro Lv idx av _ _
    exact ⟨[], by simp [authLoop], by simp⟩
  | succ k2 ih =>
    intro Lv idx av hlen hidx
    have heven : Lv.length % 2 = 0 := by
      rw [hlen, pow_succ]
      omega
    have hq : idx = 2 * (idx / 2) ∨ idx = 2 * (idx / 2) + 1 := by omega
    have hb2 : 2 * (idx / 2) + 1 < Lv.length := by omega
    have hrIdx : (if idx % 2 = 0 then idx else idx - 1) = 2 * (idx / 2) := by
      by_cases hpar : idx % 2 = 0
      · rw [if_pos hpar]; omega
      · rw [if_neg hpar]; omega
    have hr : (if idx % 2 = 0 then idx else idx - 1) < (Lv.eraseIdx idx).length := by
      rw [hrIdx, List.length_eraseIdx_of_lt hidx]
      omega
    have hv2eq : ((Lv.eraseIdx idx).eraseIdx (if idx % 2 = 0 then idx else idx - 1)) =
        (Lv.eraseIdx idx).eraseIdx (2 * (idx / 2)) := by rw [hrIdx]
    have hv2even : ((Lv.eraseIdx idx).eraseIdx (2 * (idx / 2))).length % 2 = 0 := by
      rw [List.length_eraseIdx_of_lt (by rw [List.length_eraseIdx_of_lt hidx]; omega),
        List.length_eraseIdx_of_lt hidx, hlen, pow_succ, pow_succ]
      omega
    have hpair : pairRoundM ((Lv.eraseIdx idx).eraseIdx (2 * (idx / 2))) =
        (pairRoundM Lv).eraseIdx (idx / 2) :=
      pairRoundM_erasePair Lv (idx / 2) idx hq hb2
    have hsib : (Lv.eraseIdx idx).get
        ⟨if idx % 2 = 0 then idx else idx - 1, hr⟩ =
        hashAt (Lv.eraseIdx idx) (if idx % 2 = 0 then idx else idx - 1) :=
      (hashAt_of_lt _ _ hr).symm
    have hplen : (pairRoundM Lv).length = 2 ^ (k2 + 1) := by
      rw [pairRoundM_length, hlen, pow_succ]
      omega
    have hidx2 : idx / 2 < (pairRoundM Lv).length := by
      rw [hplen]
      rw [hlen, pow_succ] at hidx
      omega
    obtain ⟨ext2, hrec, hfold2⟩ := ih (pairRoundM Lv) (idx / 2)
      (av ++ [⟨hashAt (Lv.eraseIdx idx) (if idx % 2 = 0 then idx else idx - 1),
        idx % 2 == 1⟩]) hplen hidx2
    refine ⟨⟨hashAt (Lv.eraseIdx idx) (if idx % 2 = 0 then idx else idx - 1),
      idx % 2 == 1⟩ :: ext2, ?_, ?_⟩
    · show (if hr2 : _ < (Lv.eraseIdx idx).length then _ else _) = _
      rw [dif_pos hr]
      rw [if_pos (by rw [hv2eq]; exact hv2even)]
      rw [hv2eq, hpair, hsib]
      rw [hrec]
      have hit : pairRoundM^[k2] (pairRoundM Lv) = pairRoundM^[k2 + 1] Lv :=
        (Function.iterate_succ_apply pairRoundM k2 Lv).symm
      have hdd : idx / 2 / 2 ^ k2 = idx / 2 ^ (k2 + 1) := by
        rw [Nat.div_div_eq_div_mul, pow_succ']
      rw [hit, hdd]
      simp
    · show List.foldl authCombine
        (authCombine (hashAt Lv idx) _) ext2 = _
      have hbf : authCombine (hashAt Lv idx)
          ⟨hashAt (Lv.eraseIdx idx) (if idx % 2 = 0 then idx else idx - 1),
            idx % 2 == 1⟩ = hashAt (pairRoundM Lv) (idx / 2) :=
        authCombine_sibling Lv idx hidx heven
      rw [hbf, hfold2]
      have hit : pairRoundM^[k2] (pairRoundM Lv) = pairRoundM^[k2 + 1] Lv :=
        (Function.iterate_succ_apply pairRoundM k2 Lv).symm
      have hdd : idx / 2 / 2 ^ k2 = idx / 2 ^ (k2 + 1) := by
        rw [Nat.div_div_eq_div_mul, pow_succ']
      rw [hit, hdd]

theorem findPairIdx_of_mem (e : List F) (t : F) (heven : e.length % 2 = 0)
    (hmem : t ∈ e) :
    ∃ idx, findPairIdx e t = some idx ∧ idx < e.length / 2 ∧
      (coeffAt e (2 * idx) = t ∨ coeffAt e (2 * idx + 1) = t) := by
  obtain ⟨j, hj, hget⟩ := List.mem_iff_getElem.mp hmem
  have hjp : j / 2 < e.length / 2 := by omega
  have hco : coeffAt e j = t := by
    rw [coeffAt_of_lt _ _ hj]
    simpa using hget
  have hpred : ((coeffAt e (2 * (j / 2)) == t) ||
      (coeffAt e (2 * (j / 2) + 1) == t)) = true := by
    by_cases hpar : j % 2 = 0
    · have h2 : 2 * (j / 2) = j := by omega
      rw [h2, hco]
      simp
    · have h2 : 2 * (j / 2) + 1 = j := by omega
      rw [h2, hco]
      simp
  have hsome : (findPairIdx e t).isSome := by
    rw [findPairIdx, List.find?_isSome]
    exact ⟨j / 2, List.mem_range.mpr hjp, hpred⟩
  obtain ⟨idx, hidx⟩ := Option.isSome_iff_exists.mp hsome
  have hidx2 : (List.range (e.length / 2)).find?
      (fun i => (coeffAt e (2 * i) == t) || (coeffAt e (2 * i + 1) == t)) =
      some idx := by
    rw [findPairIdx] at hidx
    exact hidx
  refine ⟨idx, hidx, List.mem_range.mp (List.mem_of_find?_eq_some hidx2), ?_⟩
  have hp := List.find?_some hidx2
  rcases (Bool.or_eq_true _ _).mp hp with h | h
  · exact Or.inl (eq_of_beq h)
  · exact Or.inr (eq_of_beq h)

theorem merkle_roundtrip (E : List F) (t : F) (n : ℕ)
    (hElen : E.length = 2 ^ (n + 3)) (hmem : t ∈ E) :
    ∃ idx, findPairIdx E t = some idx ∧
    ∃ res, authLoop (n + 1) ((leafRound E).eraseIdx idx) idx [] = some res ∧
      res.1.length = 1 ∧
      derive_root ⟨coeffAt E (2 * idx), coeffAt E (2 * idx + 1),
        res.2.2 ++ [⟨hashAt res.1 0, !(res.2.1 == 0)⟩]⟩ =
      hashAt (pairRoundM^[n + 2] (leafRound E)) 0 := by
  have hEhalf : E.length / 2 = 2 ^ (n + 2) := by
    rw [hElen, pow_succ]
    omega
  have hEeven : E.length % 2 = 0 := by
    rw [hElen, pow_succ]
    omega
  obtain ⟨idx, hfind, hidxlt, _⟩ := findPairIdx_of_mem E t hEeven hmem
  refine ⟨idx, hfind, ?_⟩
  have hL0len : (leafRound E).length = 2 ^ ((n + 1) + 1) := by
    rw [leafRound_length, hEhalf]
  have hidxlt2 : idx < (leafRound E).length := by
    rw [hL0len]
    rw [hEhalf] at hidxlt
    exact hidxlt
  obtain ⟨ext2, hloop, hfold⟩ := authLoop_spec (n + 1) (leafRound E) idx [] hL0len hidxlt2
  have hLTlen : (pairRoundM^[n + 1] (leafRound E)).length = 2 := by
    have h1 := pairRoundM_iterate_length (n + 1) (n + 2) (leafRound E)
      (by rw [hL0len]) (by omega)
    have h2 : n + 2 - (n + 1) = 1 := by omega
    rw [h2] at h1
    simpa using h1
  have hfidx : idx / 2 ^ (n + 1) < 2 := by
    refine (Nat.div_lt_iff_lt_mul (Nat.two_pow_pos (n + 1))).mpr ?_
    have h3 : 2 * 2 ^ (n + 1) = 2 ^ (n + 2) := (pow_succ' 2 (n + 1)).symm
    rw [hEhalf] at hidxlt
    omega
  refine ⟨((pairRoundM^[n + 1] (leafRound E)).eraseIdx (idx / 2 ^ (n + 1)),
    idx / 2 ^ (n + 1), [] ++ ext2), hloop, ?_, ?_⟩
  · rw [List.length_eraseIdx_of_lt (by rw [hLTlen]; exact hfidx), hLTlen]
  · simp only [derive_root, List.nil_append]
    rw [List.foldl_append]
    have hleaf : HashT.leafH (coeffAt E (2 * idx)) (coeffAt E (2 * idx + 1)) =
        hashAt (leafRound E) idx :=
      (hashAt_leafRound E idx hidxlt).symm
    rw [hleaf, hfold]
    rw [show pairRoundM^[n + 2] (leafRound E) =
      pairRoundM (pairRoundM^[n + 1] (leafRound E)) from
      Function.iterate_succ_apply' pairRoundM (n + 1) (leafRound E)]
    rw [hashAt_pairRoundM _ 0 (by rw [hLTlen]; omega)]
    have h20 : 2 * 0 = 0 := by omega
    have h21 : 2 * 0 + 1 = 1 := by omega
    rw [h20, h21]
    rcases (show idx / 2 ^ (n + 1) = 0 ∨ idx / 2 ^ (n + 1) = 1 from by
      rcases Nat.lt_or_ge (idx / 2 ^ (n + 1)) 1 with h1 | h1
      · exact Or.inl (Nat.lt_one_iff.mp h1)
      · exact Or.inr (Nat.le_antisymm (Nat.lt_succ_iff.mp hfidx) h1)) with hf0 | hf1
    · rw [hf0]
      rw [List.foldl_cons, List.foldl_nil]
      show authCombine _ ⟨_, !((0 : ℕ) == 0)⟩ = _
      rw [hashAt_eraseIdx_ge₀ _ _ _ (by rw [hLTlen]; omega) le_rfl]
      simp [authCombine]
    · rw [hf1]
      rw [List.foldl_cons, List.foldl_nil]
      show authCombine _ ⟨_, !((1 : ℕ) == 0)⟩ = _
      rw [hashAt_eraseIdx_lt₀ _ _ _ (by omega)]
      simp [authCombine]

/-- C2 (amended): for a polynomial of power-of-two length whose evaluation
`p(r)` occurs in the length-`8·len` NTT output vector that both `commitment`
and `authentication_path_for` compute, the authentication path exists and its
derived root is exactly the commitment value. -/
theorem authentication_path_derive_root (S : ℕ) (rootOfUnity : F) (p : List F)
    (r : F) (k : ℕ) (hk : p.length = 2 ^ k)
    (hmem : eval_single p r ∈
      fftCore (p ++ List.replicate (2 ^ (k + FRI_BLOWUP_LOG) - 2 ^ k) 0)
        (root_with_order_unchecked S rootOfUnity (p.length * FRI_BLOWUP_FACTOR))
        (k + FRI_BLOWUP_LOG)) :
    ∃ ap c, authentication_path_for S rootOfUnity p r = some ap ∧
      commitment S rootOfUnity p = some c ∧ derive_root ap = c := by
  have hBL : FRI_BLOWUP_LOG = 3 := rfl
  have hAlen : (p ++ List.replicate (2 ^ (k + FRI_BLOWUP_LOG) - 2 ^ k) 0).length
      = 2 ^ (k + FRI_BLOWUP_LOG) := by
    rw [List.length_append, List.length_replicate, hk]
    have h1 : 2 ^ k ≤ 2 ^ (k + FRI_BLOWUP_LOG) :=
      Nat.pow_le_pow_right (by norm_num) (by omega)
    omega
  have hfft : serial_fft (p ++ List.replicate (2 ^ (k + FRI_BLOWUP_LOG) - 2 ^ k) 0)
      (root_with_order_unchecked S rootOfUnity (p.length * FRI_BLOWUP_FACTOR))
      (k + FRI_BLOWUP_LOG) =
      some (fftCore (p ++ List.replicate (2 ^ (k + FRI_BLOWUP_LOG) - 2 ^ k) 0)
        (root_with_order_unchecked S rootOfUnity (p.length * FRI_BLOWUP_FACTOR))
        (k + FRI_BLOWUP_LOG)) := by
    unfold serial_fft
    rw [if_pos hAlen]
  set E := fftCore (p ++ List.replicate (2 ^ (k + FRI_BLOWUP_LOG) - 2 ^ k) 0)
    (root_with_order_unchecked S rootOfUnity (p.length * FRI_BLOWUP_FACTOR))
    (k + FRI_BLOWUP_LOG) with hEdef
  have hElen : E.length = 2 ^ (k + FRI_BLOWUP_LOG) := by
    rw [hEdef, fftCore, fftStages_length,
      (bitrevPerm_spec _ (k + FRI_BLOWUP_LOG) hAlen).1]
    exact hAlen
  have hElen3 : E.length = 2 ^ (k + 3) := hElen
  obtain ⟨idx, hfind, res, hloop, hres1, hroot⟩ :=
    merkle_roundtrip E (eval_single p r) k hElen3 hmem
  have hpl : poly_log_n p = k := by
    rw [poly_log_n, hk, nextPow2_of_pow2 _ ((isPow2_iff _).mpr ⟨k, rfl⟩),
      floorLog2_pow]
  have hfl : floorLog2 p.length = k := by rw [hk, floorLog2_pow]
  have hfuel : k + FRI_BLOWUP_LOG - 2 = k + 1 := by rw [hBL]; omega
  have hextm1 : k + FRI_BLOWUP_LOG - 1 = k + 2 := by rw [hBL]; omega
  have hswap : FRI_BLOWUP_FACTOR * p.length = p.length * FRI_BLOWUP_FACTOR :=
    mul_comm _ _
  have hL0len : (leafRound E).length = 2 ^ (k + 2) := by
    rw [leafRound_length, hElen3, pow_succ]
    omega
  have hlen1 : (pairRoundM^[k + 2] (leafRound E)).length = 1 := by
    have h1 := pairRoundM_iterate_length (k + 2) (k + 2) (leafRound E) hL0len le_rfl
    simpa using h1
  have happ : authentication_path_for S rootOfUnity p r =
      some ⟨coeffAt E (2 * idx), coeffAt E (2 * idx + 1),
        res.2.2 ++ [⟨hashAt res.1 0, !(res.2.1 == 0)⟩]⟩ := by
    simp only [authentication_path_for, hpl, hfuel, hfft, hfind, Option.some_bind,
      hloop]
    rw [if_pos hres1]
  have hcom : commitment S rootOfUnity p =
      some (hashAt (pairRoundM^[k + 2] (leafRound E)) 0) := by
    simp only [commitment]
    rw [if_neg (by rw [hk]; exact (Nat.two_pow_pos k).ne')]
    simp only [hfl, hswap, hfft, Option.some_bind, hextm1]
    rw [if_pos hlen1]
  exact ⟨_, _, happ, hcom, hroot⟩

/-- Witness for the amended C2 at `p = x` over `ZMod 97` (`S = 5`,
`ROOT_OF_UNITY = 28` of order 32) and `r = 1`: `p(1) = 1` appears in the NTT
vector, the path exists and its derived root is the commitment. -/
theorem authentication_path_derive_root_witness :
    (([0, 1] : List (ZMod 97)).length = 2 ^ 1) ∧
    (eval_single ([0, 1] : List (ZMod 97)) 1 ∈
      fftCore (([0, 1] : List (ZMod 97)) ++
          List.replicate (2 ^ (1 + FRI_BLOWUP_LOG) - 2 ^ 1) 0)
        (root_with_order_unchecked 5 (28 : ZMod 97)
          (([0, 1] : List (ZMod 97)).length * FRI_BLOWUP_FACTOR))
        (1 + FRI_BLOWUP_LOG)) ∧
    (∃ ap c, authentication_path_for 5 (28 : ZMod 97) [0, 1] 1 = some ap ∧
      commitment 5 (28 : ZMod 97) [0, 1] = some c ∧ derive_root ap = c) :=
  ⟨by decide, by decide,
    authentication_path_derive_root 5 28 [0, 1] 1 1 (by decide) (by decide)⟩

/-- C2: counterexample to the parenthetical "in particular every r of the
blown-up evaluation domain".  Over `ZMod 97` (`S = 5`, `ROOT_OF_UNITY = 28`
of order 32) with `p = x`, the blown-up domain has size 16 and true generator
`8 = 28²` (the squaring that `new_for_size` performs and
`root_with_order_unchecked` skips), so `22 = 8⁴` lies in the blown-up
domain; but the buffers that `commitment` and `authentication_path_for`
transform use the order-32 twiddle root `28`, so their "evaluation vector"
never contains `p(22) = 22`, and `authentication_path_for` panics
(`assert!(first_evaluation.is_some())`) instead of producing a path. -/
theorem authentication_path_domain_counterexample :
    (∃ d : DomainE (ZMod 97),
      new_for_size 5 (28 : ZMod 97) (2 * FRI_BLOWUP_FACTOR) = some d ∧
      d.generator = 8 ∧ d.generator ^ (4 : ℕ) = 22) ∧
    (commitment 5 (28 : ZMod 97) [0, 1]).isSome = true ∧
    authentication_path_for 5 (28 : ZMod 97) [0, 1] 22 = none :=
  ⟨⟨⟨16, 4, 8⟩, by decide, by decide, by decide⟩, by decide, by decide⟩

/-! ### The evaluation-proof crash on length-2 polynomials (C1) -/

theorem divLoop_qlen (v : List F) (dlen : ℕ) :
    ∀ (fuel : ℕ) (q rem : List F),
      (divLoop v dlen fuel q rem).1.length = q.length := by
  intro fuel
  induction fuel with
  | zero => intro q rem; rfl
  | succ f ih =>
    intro q rem
    show (if rem.length < dlen then (q, rem) else _).1.length = _
    by_cases h : rem.length < dlen
    · rw [if_pos h]
    · rw [if_neg h]
      rw [ih]
      simp

theorem shift_polynomial_length_two (p : List F) (r : F) (hlen : p.length = 2) :
    ∃ w, shift_polynomial p r = some w ∧ w.length = 1 := by
  have hne : ¬(p.isEmpty = true) := by
    rw [List.isEmpty_iff]
    intro h
    rw [h] at hlen
    simp at hlen
  have hstrip : stripTrailZeros [0 - r, (1 : F)] = [0 - r, 1] := by
    simp [stripTrailZeros]
  have hnum : (p.set 0 (coeffAt p 0 - eval_single p r)).length = 2 := by
    rw [List.length_set]
    exact hlen
  simp only [shift_polynomial]
  rw [if_neg hne]
  simp only [long_division, hstrip]
  rw [if_neg (by simp), if_neg (by rw [hnum]; simp)]
  have hq : (divLoop [0 - r, 1] ([0 - r, (1 : F)]).length
      (p.set 0 (coeffAt p 0 - eval_single p r)).length
      (List.replicate ((p.set 0 (coeffAt p 0 - eval_single p r)).length + 1 -
        ([0 - r, (1 : F)]).length) 0)
      (p.set 0 (coeffAt p 0 - eval_single p r))).1.length = 1 := by
    rw [divLoop_qlen, List.length_replicate, hnum]
    simp
  rw [if_pos (by rw [hq]; decide)]
  exact ⟨_, rfl, hq⟩

theorem commitment_isSome (S : ℕ) (rootOfUnity : F) (p : List F) (k : ℕ)
    (hk : p.length = 2 ^ k) :
    ∃ c, commitment S rootOfUnity p = some c := by
  have hBL : FRI_BLOWUP_LOG = 3 := rfl
  have hfl : floorLog2 p.length = k := by rw [hk, floorLog2_pow]
  have hAlen : (p ++ List.replicate (2 ^ (k + FRI_BLOWUP_LOG) - 2 ^ k) 0).length
      = 2 ^ (k + FRI_BLOWUP_LOG) := by
    rw [List.length_append, List.length_replicate, hk]
    have h1 : 2 ^ k ≤ 2 ^ (k + FRI_BLOWUP_LOG) :=
      Nat.pow_le_pow_right (by norm_num) (by omega)
    omega
  have hfft : serial_fft (p ++ List.replicate (2 ^ (k + FRI_BLOWUP_LOG) - 2 ^ k) 0)
      (root_with_order_unchecked S rootOfUnity (FRI_BLOWUP_FACTOR * p.length))
      (k + FRI_BLOWUP_LOG) =
      some (fftCore (p ++ List.replicate (2 ^ (k + FRI_BLOWUP_LOG) - 2 ^ k) 0)
        (root_with_order_unchecked S rootOfUnity (FRI_BLOWUP_FACTOR * p.length))
        (k + FRI_BLOWUP_LOG)) := by
    unfold serial_fft
    rw [if_pos hAlen]
  have hL0len : (fftCore (p ++ List.replicate (2 ^ (k + FRI_BLOWUP_LOG) - 2 ^ k) 0)
      (root_with_order_unchecked S rootOfUnity (FRI_BLOWUP_FACTOR * p.length))
      (k + FRI_BLOWUP_LOG)).length = 2 ^ (k + FRI_BLOWUP_LOG) := by
    rw [fftCore, fftStages_length,
      (bitrevPerm_spec _ (k + FRI_BLOWUP_LOG) hAlen).1]
    exact hAlen
  have hleaf : (leafRound (fftCore
      (p ++ List.replicate (2 ^ (k + FRI_BLOWUP_LOG) - 2 ^ k) 0)
      (root_with_order_unchecked S rootOfUnity (FRI_BLOWUP_FACTOR * p.length))
      (k + FRI_BLOWUP_LOG))).length = 2 ^ (k + 2) := by
    rw [leafRound_length, hL0len]
    have h2 : (2 : ℕ) ^ (k + FRI_BLOWUP_LOG) = 2 ^ (k + 2) * 2 := by
      rw [hBL, show k + 3 = k + 2 + 1 from by omega, pow_succ]
    rw [h2]
    omega
  have hextm1 : k + FRI_BLOWUP_LOG - 1 = k + 2 := by rw [hBL]; omega
  have hlen1 : (pairRoundM^[k + 2] (leafRound (fftCore
      (p ++ List.replicate (2 ^ (k + FRI_BLOWUP_LOG) - 2 ^ k) 0)
      (root_with_order_unchecked S rootOfUnity (FRI_BLOWUP_FACTOR * p.length))
      (k + FRI_BLOWUP_LOG)))).length = 1 := by
    have h1 := pairRoundM_iterate_length (k + 2) (k + 2) _ hleaf le_rfl
    simpa using h1
  refine ⟨hashAt (pairRoundM^[k + 2] (leafRound (fftCore
    (p ++ List.replicate (2 ^ (k + FRI_BLOWUP_LOG) - 2 ^ k) 0)
    (root_with_order_unchecked S rootOfUnity (FRI_BLOWUP_FACTOR * p.length))
    (k + FRI_BLOWUP_LOG)))) 0, ?_⟩
  simp only [commitment]
  rw [if_neg (by rw [hk]; exact (Nat.two_pow_pos k).ne')]
  simp only [hfl, hfft, Option.some_bind, hextm1]
  rw [if_pos hlen1]

/-- C1: refuted at `k = 1` — `evaluation_proof` crashes on every length-2
polynomial.  The shift quotient `w(x) = (p(x) - p(r))/(x - r)` has a single
coefficient, so `w_x.fold_full()` computes `log_n = 0` and its loop bound
`0..(log_n - 1)` wraps to `0..usize::MAX`; the first pass calls
`commitment` on the empty folded polynomial, whose floor-log while-loop
never terminates.  No proof object is ever produced, for any field, any
hash interpretation and any sampled `r`, so
`evaluation_proof(p, Some(r)).verify()` cannot return `ValidProof`. -/
theorem evaluation_proof_length_two_panics (S : ℕ) (rootOfUnity : F)
    (interpE : HashT F → F) (interpR : HashT F → ℕ → F) (p : List F) (r : F)
    (hlen : p.length = 2) :
    evaluation_proof S rootOfUnity interpE interpR p (some r) = none := by
  obtain ⟨w, hw, hwlen⟩ := shift_polynomial_length_two p r hlen
  obtain ⟨c, hc⟩ := commitment_isSome S rootOfUnity w 0 (by simpa using hwlen)
  have hff : fold_full S rootOfUnity interpE w = none := by
    simp only [fold_full]
    rw [if_neg (by rw [hwlen]; omega)]
    rw [hc, Option.some_bind]
    rw [if_pos (by rw [hwlen]; rfl)]
  simp only [evaluation_proof, hw, Option.some_bind, hc, hff, Option.none_bind]

/-- Witness for C1 at `p = [1, 1]` over `ZMod 17` with constant hash
interpretations and `r = 2`. -/
theorem evaluation_proof_length_two_panics_witness :
    (([1, 1] : List (ZMod 17)).length = 2) ∧
    evaluation_proof 4 (3 : ZMod 17) (fun _ => 0) (fun _ _ => 0) [1, 1]
      (some 2) = none :=
  ⟨by decide,
    evaluation_proof_length_two_panics 4 3 (fun _ => 0) (fun _ _ => 0) [1, 1] 2
      (by decide)⟩

end Plonky2
